import Mathlib

set_option maxHeartbeats 1000000

/-!
# Verification of the `strong_typing` JSON serialization core

A shallow embedding of `strong_typing/serialization.py`,
`strong_typing/inspection.py` and `strong_typing/exception.py`.

* Python values that the codec converts are modelled by `Value`; the
  JSON-compatible representation (`JsonType`) by `JsonValue`.
* Type references (the result of reflection over annotations) are modelled
  by `Typ`; dataclass field manifests by `FieldDecl`.
* Exceptions are modelled by `JsonError`; a raising Python function becomes
  a Lean function into `Except JsonError _`.
* `object_to_json` becomes `objectToJson`; the recursive deserializer
  `_json_to_object` becomes `jsonToObject`.  The public `json_to_object`
  delegates to a deserializer engine whose module is not part of the sources
  here; per the specification both entry points implement the same recursive
  structural algorithm, so recursive calls `json_to_object(t, item)` inside
  `_json_to_object` are modelled as recursion into `jsonToObject` itself.
* Host-library primitives used by the codec (ISO-8601 parsing and printing
  from `datetime`, Base64 from `base64`, UUID parsing/printing from `uuid`,
  `int`/`str` conversions) are modelled explicitly below, faithful to the
  formats the specification names.  Python `str.__eq__`-style numeric
  coercions between `bool`, `int` and `float` values (`True == 1`) are not
  modelled; equality on modelled values is structural.
* The generic fallback paths of the codec that reflect over arbitrary
  non-dataclass, non-named-tuple classes are outside the modelled type
  grammar (`Typ` ends at enums, dataclasses and named tuples), as is the
  custom `to_json`/`from_json` hook dispatch.
-/

namespace StrongTyping

/-! ## Decimal and hexadecimal digit printing and parsing

Shared machinery for ISO-8601 timestamps (`datetime.isoformat` /
`datetime.fromisoformat`), canonical UUID strings (`uuid.UUID` / `str`),
and Python `int`/`str` conversions.
-/

/-- The character for digit value `d` (lower-case letters from 10 up),
as produced by Python number formatting. -/
def digitChar (d : Nat) : Char :=
  if d < 10 then Char.ofNat (48 + d) else Char.ofNat (87 + d)

/-- The digit value of a character under base `b` (case-insensitive, as
accepted by Python `int(s, b)`), or `none` if the character is not a valid
digit for that base. -/
def digitVal (b : Nat) (c : Char) : Option Nat :=
  let v : Option Nat :=
    if 48 ≤ c.toNat ∧ c.toNat ≤ 57 then some (c.toNat - 48)
    else if 97 ≤ c.toNat ∧ c.toNat ≤ 122 then some (c.toNat - 87)
    else if 65 ≤ c.toNat ∧ c.toNat ≤ 90 then some (c.toNat - 55)
    else none
  match v with
  | some d => if d < b then some d else none
  | none => none

/-- Fixed-width, most-significant-first digit expansion of `n` in base `b`
(`w` digits), as produced by zero-padded Python formatting such as
`%04d` inside `isoformat` or the `%032x` inside `UUID.__str__`. -/
def toBasePadded (b : Nat) : Nat → Nat → List Char
  | 0, _ => []
  | w + 1, n => digitChar (n / b ^ w) :: toBasePadded b w (n % b ^ w)

/-- Folds digit characters into a number; fails on a non-digit. -/
def foldDigits (b : Nat) : Nat → List Char → Option Nat
  | acc, [] => some acc
  | acc, c :: cs =>
    match digitVal b c with
    | some d => foldDigits b (acc * b + d) cs
    | none => none

/-- Reads exactly `w` digit characters off the front of `cs`. -/
def readFixed (b : Nat) : Nat → Nat → List Char → Option (Nat × List Char)
  | 0, acc, cs => some (acc, cs)
  | w + 1, acc, cs =>
    match cs with
    | [] => none
    | c :: cs' =>
      match digitVal b c with
      | some d => readFixed b w (acc * b + d) cs'
      | none => none

theorem char_toNat_ofNat (n : Nat) (h : n < 55296) : (Char.ofNat n).toNat = n := by
  have hv : Nat.isValidChar n := Or.inl h
  simp only [Char.ofNat, hv, dif_pos, Char.ofNatAux, Char.toNat]
  rfl

theorem digitVal_digitChar (b d : Nat) (hb : b ≤ 36) (hd : d < b) :
    digitVal b (digitChar d) = some d := by
  unfold digitChar digitVal
  by_cases h : d < 10
  · have h1 : (Char.ofNat (48 + d)).toNat = 48 + d := char_toNat_ofNat _ (by omega)
    simp only [h, if_true, h1]
    have : 48 ≤ 48 + d ∧ 48 + d ≤ 57 := by omega
    simp [this, hd]
  · have hd36 : d < 36 := by omega
    have h1 : (Char.ofNat (87 + d)).toNat = 87 + d := char_toNat_ofNat _ (by omega)
    simp only [h, if_false, h1]
    have c1 : ¬ (48 ≤ 87 + d ∧ 87 + d ≤ 57) := by omega
    have c2 : 97 ≤ 87 + d ∧ 87 + d ≤ 122 := by omega
    simp [c1, c2, hd]

theorem readFixed_toBasePadded (b : Nat) (hb : 2 ≤ b) (hb' : b ≤ 36) :
    ∀ (w n acc : Nat) (rest : List Char), n < b ^ w →
      readFixed b w acc (toBasePadded b w n ++ rest) = some (acc * b ^ w + n, rest) := by
  intro w
  induction w with
  | zero =>
    intro n acc rest hn
    have hz : n = 0 := by simpa using hn
    subst hz
    simp [toBasePadded, readFixed]
  | succ w ih =>
    intro n acc rest hn
    have hbw : 0 < b ^ w := Nat.pos_pow_of_pos w (by omega)
    have hdig : n / b ^ w < b := by
      have hmul : n < b ^ w * b := by
        calc n < b ^ (w + 1) := hn
        _ = b ^ w * b := by ring
      exact Nat.div_lt_of_lt_mul hmul
    have hmod : n % b ^ w < b ^ w := Nat.mod_lt _ hbw
    simp only [toBasePadded, readFixed, List.cons_append,
      digitVal_digitChar b (n / b ^ w) hb' hdig]
    rw [ih (n % b ^ w) (acc * b + n / b ^ w) rest hmod]
    congr 2
    have hdm := Nat.div_add_mod n (b ^ w)
    calc (acc * b + n / b ^ w) * b ^ w + n % b ^ w
        = acc * (b ^ w * b) + (b ^ w * (n / b ^ w) + n % b ^ w) := by ring
    _ = acc * b ^ (w + 1) + n := by rw [hdm]; ring

theorem foldDigits_append (b : Nat) (acc : Nat) (cs ds : List Char) :
    foldDigits b acc (cs ++ ds) =
      match foldDigits b acc cs with
      | some m => foldDigits b m ds
      | none => none := by
  induction cs generalizing acc with
  | nil => simp [foldDigits]
  | cons c cs ih =>
    simp only [List.cons_append, foldDigits]
    cases digitVal b c with
    | none => rfl
    | some d => exact ih (acc * b + d)

theorem foldDigits_toBasePadded (b : Nat) (hb : 2 ≤ b) (hb' : b ≤ 36) :
    ∀ (w n acc : Nat), n < b ^ w →
      foldDigits b acc (toBasePadded b w n) = some (acc * b ^ w + n) := by
  intro w
  induction w with
  | zero =>
    intro n acc hn
    have hz : n = 0 := by simpa using hn
    subst hz
    simp [toBasePadded, foldDigits]
  | succ w ih =>
    intro n acc hn
    have hbw : 0 < b ^ w := Nat.pos_pow_of_pos w (by omega)
    have hdig : n / b ^ w < b := by
      have hmul : n < b ^ w * b := by
        calc n < b ^ (w + 1) := hn
        _ = b ^ w * b := by ring
      exact Nat.div_lt_of_lt_mul hmul
    have hmod : n % b ^ w < b ^ w := Nat.mod_lt _ hbw
    simp only [toBasePadded, foldDigits, digitVal_digitChar b (n / b ^ w) hb' hdig]
    rw [ih (n % b ^ w) (acc * b + n / b ^ w) hmod]
    congr 1
    have hdm := Nat.div_add_mod n (b ^ w)
    calc (acc * b + n / b ^ w) * b ^ w + n % b ^ w
        = acc * (b ^ w * b) + (b ^ w * (n / b ^ w) + n % b ^ w) := by ring
    _ = acc * b ^ (w + 1) + n := by rw [hdm]; ring

/-- The number of decimal digits of `n` (at least 1). -/
def numDigits (n : Nat) : Nat :=
  if h : n < 10 then 1 else numDigits (n / 10) + 1
decreasing_by exact Nat.div_lt_self (by omega) (by omega)

theorem lt_pow_numDigits (n : Nat) : n < 10 ^ numDigits n := by
  induction n using Nat.strong_induction_on with
  | _ n ih =>
    unfold numDigits
    by_cases h : n < 10
    · simp only [h, dif_pos]
      omega
    · have hlt : n / 10 < n := Nat.div_lt_self (by omega) (by omega)
      have := ih (n / 10) hlt
      simp only [h, dif_neg, not_false_iff]
      have h10 : n < 10 * (n / 10) + 10 := by omega
      calc n < 10 * (n / 10) + 10 := h10
      _ ≤ 10 * 10 ^ numDigits (n / 10) := by
            have : n / 10 + 1 ≤ 10 ^ numDigits (n / 10) := this
            omega
      _ = 10 ^ (numDigits (n / 10) + 1) := by ring

/-- Python `str` of a non-negative integer. -/
def natToStr (n : Nat) : List Char := toBasePadded 10 (numDigits n) n

theorem foldDigits_natToStr (n : Nat) : foldDigits 10 0 (natToStr n) = some n := by
  have h := foldDigits_toBasePadded 10 (by omega) (by omega) (numDigits n) n 0
    (lt_pow_numDigits n)
  rw [natToStr, h]
  norm_num

/-- Python `str` of an integer (a leading minus sign for negative values). -/
def intToStr (n : Int) : List Char :=
  if n < 0 then '-' :: natToStr n.natAbs else natToStr n.natAbs

/-- Modelled from the spec: Python `int(s)` applied to a string, the direct
construction of an integer dictionary key from JSON object-key text.  The
model accepts an optional sign followed by decimal digits; surrounding
whitespace and digit-group underscores accepted by the host parser are not
modelled.  Failure is the host `ValueError`. -/
def strToInt (cs : List Char) : Option Int :=
  match cs with
  | [] => none
  | c :: rest =>
    if c = '-' then
      match rest, foldDigits 10 0 rest with
      | _ :: _, some n => some (-(n : Int))
      | _, _ => none
    else if c = '+' then
      match rest, foldDigits 10 0 rest with
      | _ :: _, some n => some ((n : Int))
      | _, _ => none
    else
      match foldDigits 10 0 (c :: rest) with
      | some n => some ((n : Int))
      | none => none

theorem natToStr_ne_nil (n : Nat) : natToStr n ≠ [] := by
  unfold natToStr
  have : numDigits n = (numDigits n - 1) + 1 := by
    unfold numDigits
    by_cases h : n < 10 <;> simp [h]
  rw [this, toBasePadded]
  simp

theorem natToStr_head_not_sign (n : Nat) :
    ∀ c cs, natToStr n = c :: cs → c ≠ '-' ∧ c ≠ '+' := by
  intro c cs h
  unfold natToStr at h
  have hd : numDigits n = (numDigits n - 1) + 1 := by
    unfold numDigits
    by_cases hn : n < 10 <;> simp [hn]
  rw [hd, toBasePadded] at h
  have hlead : n / 10 ^ (numDigits n - 1) < 10 := by
    have hlt := lt_pow_numDigits n
    rw [hd, pow_succ] at hlt
    exact Nat.div_lt_of_lt_mul hlt
  have hc : c = digitChar (n / 10 ^ (numDigits n - 1)) := by
    injection h with h1 _
    exact h1.symm
  subst hc
  unfold digitChar
  simp only [hlead, if_true]
  have htn : (Char.ofNat (48 + n / 10 ^ (numDigits n - 1))).toNat
      = 48 + n / 10 ^ (numDigits n - 1) := char_toNat_ofNat _ (by omega)
  have hminus : ('-').toNat = 45 := rfl
  have hplus : ('+').toNat = 43 := rfl
  constructor <;>
  · intro hcontra
    have hcc := congrArg Char.toNat hcontra
    rw [htn] at hcc
    have h48 : (48:Nat) ≤ 48 + n / 10 ^ (numDigits n - 1) := Nat.le_add_right _ _
    rw [hcc] at h48
    first
    | rw [hminus] at h48; omega
    | rw [hplus] at h48; omega


theorem strToInt_intToStr (n : Int) : strToInt (intToStr n) = some n := by
  obtain ⟨c, cs, hcons⟩ : ∃ c cs, natToStr n.natAbs = c :: cs := by
    cases hh : natToStr n.natAbs with
    | nil => exact absurd hh (natToStr_ne_nil _)
    | cons c cs => exact ⟨c, cs, rfl⟩
  have hsign := natToStr_head_not_sign n.natAbs c cs hcons
  have hfold := foldDigits_natToStr n.natAbs
  rw [hcons] at hfold
  unfold intToStr
  by_cases h : n < 0
  · simp only [h, if_true, hcons]
    unfold strToInt
    simp only [if_true, hfold]
    congr 1
    omega
  · simp only [h, if_false, hcons]
    unfold strToInt
    simp only [hsign.1, hsign.2, if_false, hfold]
    congr 1
    omega

/-! ## The value model

`Value` models the Python values the codec converts; `JsonValue` models the
JSON-compatible representation (`JsonType`).  Python permits arbitrary
hashable dictionary keys, and `object_to_json` emits enum underlying values
as keys, so JSON-object keys are modelled by the primitive-constant type
`Prim` rather than by strings alone.
-/

/-- Python float values, kept opaque: either the exact conversion of an
integer (`float(n)`) or an uninterpreted double identified by its host
`repr` text.  Floating-point arithmetic is never performed by the codec;
floats only pass through unchanged. -/
inductive PyFloat where
  | ofInt (n : Int)
  | lit (s : String)
deriving DecidableEq

/-- Hashable primitive constants: underlying values of enumeration members
and keys of the JSON objects produced by the encoder. -/
inductive Prim where
  | pnull
  | pbool (b : Bool)
  | pint (n : Int)
  | pfloat (x : PyFloat)
  | pstr (s : String)
deriving DecidableEq

/-- The JSON-compatible value model (`JsonType` from `core.py`, which is
not among the sources; modelled from the spec: "one of Null, Boolean,
Number, String, ordered-key Object (string keys, JSON Value values),
ordered Array").  Keys are `Prim` because the encoder's Python dictionaries
may carry enum underlying values as keys before text serialization. -/
inductive JsonValue where
  | null
  | jbool (b : Bool)
  | jint (n : Int)
  | jfloat (x : PyFloat)
  | jstr (s : String)
  | arr (items : List JsonValue)
  | obj (members : List (Prim × JsonValue))

/-- A Python `datetime.datetime`: components plus an optional fixed UTC
offset in minutes (`None` models a naive datetime).  Offsets with a
seconds component are not modelled. -/
structure DateTime where
  year : Nat
  month : Nat
  day : Nat
  hour : Nat
  minute : Nat
  second : Nat
  microsecond : Nat
  tzOffsetMinutes : Option Int
deriving DecidableEq

/-- A Python `datetime.date`. -/
structure PyDate where
  year : Nat
  month : Nat
  day : Nat
deriving DecidableEq

/-- A Python `datetime.time` (time-zone-aware times are not modelled). -/
structure PyTime where
  hour : Nat
  minute : Nat
  second : Nat
  microsecond : Nat
deriving DecidableEq

/-- Python values of the shapes the codec understands.  `record` is a
dataclass instance; `ntuple` a named-tuple instance.  `bytes` entries are
byte values (kept below 256 by well-formedness hypotheses).  `set` and
`dict` store iteration order explicitly; `dict` entries are key-value
pairs in insertion order. -/
inductive Value where
  | none
  | bool (b : Bool)
  | int (n : Int)
  | float (x : PyFloat)
  | str (s : String)
  | bytes (bs : List Nat)
  | datetime (dt : DateTime)
  | date (d : PyDate)
  | time (t : PyTime)
  | uuid (n : Nat)
  | enum (cls : String) (member : String) (val : Prim)
  | list (xs : List Value)
  | dict (entries : List (Value × Value))
  | set (xs : List Value)
  | tuple (xs : List Value)
  | record (cls : String) (fields : List (String × Value))
  | ntuple (cls : String) (fields : List (String × Value))

mutual

/-- Type references as produced by reflection over annotations: the
descriptor grammar the two conversion directions interpret.  The generic
fallback over arbitrary plain classes and the custom `to_json`/`from_json`
hooks are outside this grammar. -/
inductive Typ where
  | noneType
  | bool
  | int
  | float
  | str
  | bytes
  | datetime
  | date
  | time
  | uuid
  | list (item : Typ)
  | dict (key : Typ) (val : Typ)
  | set (item : Typ)
  | tuple (members : List Typ)
  | union (members : List Typ)
  | enum (cls : String) (members : List (String × Prim))
  | dataclass (cls : String) (fields : List FieldDecl)
  | namedtuple (cls : String) (fields : List (String × Typ))
  | annotated (inner : Typ) (meta : List String)

/-- A dataclass field manifest: name, annotated type, optional default
value and optional default factory (a factory is modelled by the value it
returns; `Option.none` models `dataclasses.MISSING`). -/
inductive FieldDecl where
  | mk (fname : String) (ftype : Typ) (dflt : Option Value)
      (dfltFactory : Option Value)

end

def FieldDecl.fname : FieldDecl → String
  | .mk n _ _ _ => n

def FieldDecl.ftype : FieldDecl → Typ
  | .mk _ t _ _ => t

def FieldDecl.dflt : FieldDecl → Option Value
  | .mk _ _ d _ => d

def FieldDecl.dfltFactory : FieldDecl → Option Value
  | .mk _ _ _ f => f

/-- Exceptions raised by the codec (`exception.py`) together with the host
exceptions that can escape it: `TypeError`, `ValueError` (also the base of
`binascii.Error`), `KeyError` (named-tuple field lookup) and
`AttributeError` (`.value` access on a non-enum dictionary key). -/
inductive JsonError where
  | jsonKeyError (msg : String)
  | jsonTypeError (msg : String)
  | jsonValueError (msg : String)
  | typeError (msg : String)
  | valueError (msg : String)
  | pyKeyError (msg : String)
  | attributeError (msg : String)
deriving DecidableEq

/-! ## ISO-8601 timestamps

Modelled from the spec: the host `datetime` library collaborators
(`isoformat`, `fromisoformat`), which the sources call but do not define.
The printer follows `isoformat()` exactly for the modelled component
ranges; the parser follows the `fromisoformat` grammar (the inverse of
`isoformat` output): `YYYY-MM-DD[<sep>HH[:MM[:SS[.fff[fff]]]][±HH:MM]]`.
-/

/-- Zero-padded fixed-width decimal rendering. -/
def pad (w n : Nat) : String := String.mk (toBasePadded 10 w n)

/-- Rendering of a UTC offset as `±HH:MM` (as `isoformat` renders a
whole-minute `utcoffset`). -/
def offsetToStr (off : Int) : String :=
  (if off < 0 then "-" else "+") ++ pad 2 (off.natAbs / 60) ++ ":" ++
    pad 2 (off.natAbs % 60)

/-- The fractional-seconds suffix of `isoformat`: omitted when the
microsecond field is zero. -/
def fracStr (us : Nat) : String :=
  if us = 0 then "" else "." ++ pad 6 us

/-- The offset suffix of `isoformat`: omitted for naive values. -/
def tzSuffix (tz : Option Int) : String :=
  match tz with
  | Option.none => ""
  | some off => offsetToStr off

/-- `datetime.isoformat(sep)`: fraction omitted when the microsecond field
is zero, offset omitted for naive values. -/
def DateTime.isoformatSep (dt : DateTime) (sep : Char) : String :=
  pad 4 dt.year ++ "-" ++ pad 2 dt.month ++ "-" ++ pad 2 dt.day ++
  String.singleton sep ++
  pad 2 dt.hour ++ ":" ++ pad 2 dt.minute ++ ":" ++ pad 2 dt.second ++
  fracStr dt.microsecond ++ tzSuffix dt.tzOffsetMinutes

/-- `datetime.isoformat()` with the default separator. -/
def DateTime.isoformat (dt : DateTime) : String := dt.isoformatSep 'T'

def PyDate.isoformat (d : PyDate) : String :=
  pad 4 d.year ++ "-" ++ pad 2 d.month ++ "-" ++ pad 2 d.day

def PyTime.isoformat (t : PyTime) : String :=
  pad 2 t.hour ++ ":" ++ pad 2 t.minute ++ ":" ++ pad 2 t.second ++
  fracStr t.microsecond

def isLeapYear (y : Nat) : Bool :=
  decide ((y % 4 = 0 ∧ y % 100 ≠ 0) ∨ y % 400 = 0)

def daysInMonth (y m : Nat) : Nat :=
  if m = 2 then (if isLeapYear y then 29 else 28)
  else if m = 4 ∨ m = 6 ∨ m = 9 ∨ m = 11 then 30
  else 31

/-- The component ranges enforced by the `datetime.datetime` constructor. -/
def DateTime.Valid (dt : DateTime) : Prop :=
  1 ≤ dt.year ∧ dt.year ≤ 9999 ∧ 1 ≤ dt.month ∧ dt.month ≤ 12 ∧
  1 ≤ dt.day ∧ dt.day ≤ daysInMonth dt.year dt.month ∧
  dt.hour ≤ 23 ∧ dt.minute ≤ 59 ∧ dt.second ≤ 59 ∧
  dt.microsecond ≤ 999999 ∧
  (∀ off ∈ dt.tzOffsetMinutes, off.natAbs ≤ 1439)

instance (dt : DateTime) : Decidable dt.Valid := by
  unfold DateTime.Valid
  infer_instance

/-- Consumes an expected punctuation character. -/
def expectChar (c : Char) : List Char → Option (List Char)
  | [] => Option.none
  | c' :: cs => if c' = c then some cs else Option.none

/-- The time-of-day part of the `fromisoformat` grammar:
`HH[:MM[:SS[.fff[fff]]]]`, returning the remaining characters. -/
def parseTimePart (cs : List Char) :
    Option (Nat × Nat × Nat × Nat × List Char) :=
  match readFixed 10 2 0 cs with
  | Option.none => Option.none
  | some (h, cs1) =>
    match expectChar ':' cs1 with
    | Option.none => some (h, 0, 0, 0, cs1)
    | some cs2 =>
      match readFixed 10 2 0 cs2 with
      | Option.none => Option.none
      | some (mi, cs3) =>
        match expectChar ':' cs3 with
        | Option.none => some (h, mi, 0, 0, cs3)
        | some cs4 =>
          match readFixed 10 2 0 cs4 with
          | Option.none => Option.none
          | some (sec, cs5) =>
            match expectChar '.' cs5 with
            | Option.none => some (h, mi, sec, 0, cs5)
            | some cs6 =>
              match readFixed 10 6 0 cs6 with
              | some (us, cs7) => some (h, mi, sec, us, cs7)
              | Option.none =>
                match readFixed 10 3 0 cs6 with
                | some (ms, cs7) => some (h, mi, sec, ms * 1000, cs7)
                | Option.none => Option.none

/-- The trailing UTC-offset part of the `fromisoformat` grammar: empty or
`±HH:MM` (offsets with seconds are not modelled), with the constructor
range check on the offset. -/
def parseOffsetPart (cs : List Char) : Option (Option Int) :=
  match cs with
  | [] => some Option.none
  | sign :: cs1 =>
    if sign = '+' ∨ sign = '-' then
      match readFixed 10 2 0 cs1 with
      | Option.none => Option.none
      | some (oh, cs2) =>
        match expectChar ':' cs2 with
        | Option.none => Option.none
        | some cs3 =>
          match readFixed 10 2 0 cs3 with
          | Option.none => Option.none
          | some (om, cs4) =>
            match cs4 with
            | [] =>
              if oh ≤ 23 ∧ om ≤ 59 then
                some (some (if sign = '-' then -((oh * 60 + om : Nat) : Int)
                  else ((oh * 60 + om : Nat) : Int)))
              else Option.none
            | _ => Option.none
    else Option.none

/-- The date part `YYYY-MM-DD`, returning the remaining characters. -/
def parseDatePart (cs : List Char) : Option (Nat × Nat × Nat × List Char) :=
  match readFixed 10 4 0 cs with
  | Option.none => Option.none
  | some (y, cs1) =>
    match expectChar '-' cs1 with
    | Option.none => Option.none
    | some cs2 =>
      match readFixed 10 2 0 cs2 with
      | Option.none => Option.none
      | some (mo, cs3) =>
        match expectChar '-' cs3 with
        | Option.none => Option.none
        | some cs4 =>
          match readFixed 10 2 0 cs4 with
          | Option.none => Option.none
          | some (d, cs5) => some (y, mo, d, cs5)

/-- The `datetime.date`/`datetime.datetime` constructor range check. -/
def validComponents (y mo d h mi sec : Nat) : Bool :=
  decide (1 ≤ y ∧ y ≤ 9999 ∧ 1 ≤ mo ∧ mo ≤ 12 ∧ 1 ≤ d ∧
    d ≤ daysInMonth y mo ∧ h ≤ 23 ∧ mi ≤ 59 ∧ sec ≤ 59)

/-- `datetime.datetime.fromisoformat` (failure is the host `ValueError`). -/
def fromisoformatDateTime (s : String) : Except JsonError DateTime :=
  let err : Except JsonError DateTime :=
    .error (.valueError ("Invalid isoformat string: \x27" ++ s ++ "\x27"))
  match parseDatePart s.data with
  | Option.none => err
  | some (y, mo, d, cs) =>
    match cs with
    | [] =>
      if validComponents y mo d 0 0 0 then
        .ok ⟨y, mo, d, 0, 0, 0, 0, Option.none⟩
      else err
    | _sep :: cs1 =>
      match parseTimePart cs1 with
      | Option.none => err
      | some (h, mi, sec, us, cs2) =>
        match parseOffsetPart cs2 with
        | Option.none => err
        | some tz =>
          if validComponents y mo d h mi sec then
            .ok ⟨y, mo, d, h, mi, sec, us, tz⟩
          else err

/-- `datetime.date.fromisoformat`. -/
def fromisoformatDate (s : String) : Except JsonError PyDate :=
  let err : Except JsonError PyDate :=
    .error (.valueError ("Invalid isoformat string: \x27" ++ s ++ "\x27"))
  match parseDatePart s.data with
  | Option.none => err
  | some (y, mo, d, cs) =>
    match cs with
    | [] => if validComponents y mo d 0 0 0 then .ok ⟨y, mo, d⟩ else err
    | _ :: _ => err

/-- `datetime.time.fromisoformat` (time-zone suffixes not modelled). -/
def fromisoformatTime (s : String) : Except JsonError PyTime :=
  let err : Except JsonError PyTime :=
    .error (.valueError ("Invalid isoformat string: \x27" ++ s ++ "\x27"))
  match parseTimePart s.data with
  | Option.none => err
  | some (h, mi, sec, us, rest) =>
    match rest with
    | [] =>
      if validComponents 2000 1 1 h mi sec then .ok ⟨h, mi, sec, us⟩ else err
    | _ :: _ => err

theorem readFixed_pad (w n : Nat) (rest : List Char) (hn : n < 10 ^ w) :
    readFixed 10 w 0 (toBasePadded 10 w n ++ rest) = some (n, rest) := by
  have h := readFixed_toBasePadded 10 (by omega) (by omega) w n 0 rest hn
  rw [h]
  norm_num

theorem parseTimePart_print (h mi sec us : Nat) (rest : List Char)
    (hh : h < 10 ^ 2) (hmi : mi < 10 ^ 2) (hs : sec < 10 ^ 2)
    (hus : us < 10 ^ 6)
    (hrest : ∀ c cs, rest = c :: cs → c ≠ '.') :
    parseTimePart (toBasePadded 10 2 h ++ ':' ::
        (toBasePadded 10 2 mi ++ ':' :: (toBasePadded 10 2 sec ++
        ((if us = 0 then ([] : List Char) else '.' :: toBasePadded 10 6 us) ++
          rest)))) =
      some (h, mi, sec, us, rest) := by
  by_cases h0 : us = 0
  · subst h0
    simp only [if_pos rfl, List.nil_append]
    unfold parseTimePart
    rw [readFixed_pad 2 h _ hh]
    simp [expectChar]
    rw [readFixed_pad 2 mi _ hmi]
    simp [expectChar]
    rw [readFixed_pad 2 sec _ hs]
    cases hr : rest with
    | nil => simp [expectChar]
    | cons c cs =>
      have hc := hrest c cs hr
      simp [expectChar, hc]
  · simp only [if_neg h0]
    unfold parseTimePart
    rw [readFixed_pad 2 h _ hh]
    simp [expectChar]
    rw [readFixed_pad 2 mi _ hmi]
    simp [expectChar]
    rw [readFixed_pad 2 sec _ hs]
    simp [expectChar]
    rw [readFixed_pad 6 us _ hus]

theorem parseDatePart_print (y mo d : Nat) (rest : List Char)
    (hy : y < 10 ^ 4) (hmo : mo < 10 ^ 2) (hd : d < 10 ^ 2) :
    parseDatePart (toBasePadded 10 4 y ++ '-' ::
        (toBasePadded 10 2 mo ++ '-' :: (toBasePadded 10 2 d ++ rest))) =
      some (y, mo, d, rest) := by
  unfold parseDatePart
  rw [readFixed_pad 4 y _ hy]
  simp [expectChar]
  rw [readFixed_pad 2 mo _ hmo]
  simp [expectChar]
  rw [readFixed_pad 2 d _ hd]

theorem parseOffsetPart_print (off : Int) (hoff : off.natAbs ≤ 1439) :
    parseOffsetPart ((offsetToStr off).data) = some (some off) := by
  have hdm := Nat.div_add_mod off.natAbs 60
  have hoh : off.natAbs / 60 < 10 ^ 2 := by omega
  have hom : off.natAbs % 60 < 10 ^ 2 := by
    have := Nat.mod_lt off.natAbs (show 0 < 60 by omega)
    omega
  have hohle : off.natAbs / 60 ≤ 23 := by omega
  have homle : off.natAbs % 60 ≤ 59 := by
    have := Nat.mod_lt off.natAbs (show 0 < 60 by omega)
    omega
  by_cases hneg : off < 0
  · have hdata : (offsetToStr off).data =
        '-' :: (toBasePadded 10 2 (off.natAbs / 60) ++ ':' ::
          toBasePadded 10 2 (off.natAbs % 60)) := by
      simp [offsetToStr, hneg, pad, String.data_append]
    rw [hdata]
    unfold parseOffsetPart
    have hpm : ('-' = '+' ∨ '-' = '-') := Or.inr rfl
    simp only [hpm, if_pos]
    have hfix := readFixed_pad 2 (off.natAbs / 60)
      (':' :: toBasePadded 10 2 (off.natAbs % 60)) hoh
    rw [hfix]
    simp [expectChar]
    have hfix2 := readFixed_pad 2 (off.natAbs % 60) [] hom
    rw [List.append_nil] at hfix2
    rw [hfix2]
    simp only [hohle, homle, and_self, if_pos]
    congr 2
    simp only [Int.abs_eq_natAbs]
    omega
  · have hdata : (offsetToStr off).data =
        '+' :: (toBasePadded 10 2 (off.natAbs / 60) ++ ':' ::
          toBasePadded 10 2 (off.natAbs % 60)) := by
      simp [offsetToStr, hneg, pad, String.data_append]
    rw [hdata]
    unfold parseOffsetPart
    have hpm : ('+' = '+' ∨ '+' = '-') := Or.inl rfl
    simp only [hpm, if_pos]
    have hfix := readFixed_pad 2 (off.natAbs / 60)
      (':' :: toBasePadded 10 2 (off.natAbs % 60)) hoh
    rw [hfix]
    simp [expectChar]
    have hfix2 := readFixed_pad 2 (off.natAbs % 60) [] hom
    rw [List.append_nil] at hfix2
    rw [hfix2]
    simp only [hohle, homle, and_self, if_pos]
    congr 2
    simp only [Int.abs_eq_natAbs]
    omega

theorem parseTimePart_print_nofrac (h mi sec : Nat) (rest : List Char)
    (hh : h < 10 ^ 2) (hmi : mi < 10 ^ 2) (hs : sec < 10 ^ 2)
    (hrest : ∀ c cs, rest = c :: cs → c ≠ '.') :
    parseTimePart (toBasePadded 10 2 h ++ ':' ::
        (toBasePadded 10 2 mi ++ ':' :: (toBasePadded 10 2 sec ++ rest))) =
      some (h, mi, sec, 0, rest) := by
  have hmain := parseTimePart_print h mi sec 0 rest hh hmi hs (by norm_num) hrest
  simpa using hmain

theorem parseTimePart_print_frac (h mi sec us : Nat) (rest : List Char)
    (hh : h < 10 ^ 2) (hmi : mi < 10 ^ 2) (hs : sec < 10 ^ 2)
    (hus : us < 10 ^ 6) :
    parseTimePart (toBasePadded 10 2 h ++ ':' ::
        (toBasePadded 10 2 mi ++ ':' :: (toBasePadded 10 2 sec ++
          ('.' :: (toBasePadded 10 6 us ++ rest))))) =
      some (h, mi, sec, us, rest) := by
  unfold parseTimePart
  rw [readFixed_pad 2 h _ hh]
  simp [expectChar]
  rw [readFixed_pad 2 mi _ hmi]
  simp [expectChar]
  rw [readFixed_pad 2 sec _ hs]
  simp [expectChar]
  rw [readFixed_pad 6 us _ hus]

theorem parseTimePart_print_nofrac_nil (h mi sec : Nat)
    (hh : h < 10 ^ 2) (hmi : mi < 10 ^ 2) (hs : sec < 10 ^ 2) :
    parseTimePart (toBasePadded 10 2 h ++ ':' ::
        (toBasePadded 10 2 mi ++ ':' :: toBasePadded 10 2 sec)) =
      some (h, mi, sec, 0, []) := by
  have hmain := parseTimePart_print_nofrac h mi sec [] hh hmi hs
    (fun c cs hc => by cases hc)
  simpa using hmain

theorem parseTimePart_print_frac_nil (h mi sec us : Nat)
    (hh : h < 10 ^ 2) (hmi : mi < 10 ^ 2) (hs : sec < 10 ^ 2)
    (hus : us < 10 ^ 6) :
    parseTimePart (toBasePadded 10 2 h ++ ':' ::
        (toBasePadded 10 2 mi ++ ':' ::
          (toBasePadded 10 2 sec ++ '.' :: toBasePadded 10 6 us))) =
      some (h, mi, sec, us, []) := by
  have hmain := parseTimePart_print_frac h mi sec us [] hh hmi hs hus
  simpa using hmain

theorem offsetToStr_head_sign (off : Int) :
    ∀ c cs, (offsetToStr off).data = c :: cs → c = '+' ∨ c = '-' := by
  intro c cs h
  unfold offsetToStr at h
  by_cases hneg : off < 0 <;>
    simp only [hneg, if_true, if_false, String.data_append, pad] at h
  · exact Or.inr (by injection h with h1 _; exact h1.symm)
  · exact Or.inl (by injection h with h1 _; exact h1.symm)

theorem data_mk (l : List Char) : (String.mk l).data = l := rfl

theorem data_singleton (c : Char) : (String.singleton c).data = [c] := rfl

theorem data_empty : ("" : String).data = [] := rfl

theorem data_dash : ("-" : String).data = ['-'] := rfl

theorem data_colon : (":" : String).data = [':'] := rfl

theorem data_pad (w n : Nat) : (pad w n).data = toBasePadded 10 w n := rfl

theorem data_fracStr_zero : (fracStr 0).data = [] := rfl

theorem data_fracStr (us : Nat) (h : us ≠ 0) :
    (fracStr us).data = '.' :: toBasePadded 10 6 us := by
  unfold fracStr
  rw [if_neg h]
  rfl

theorem data_tzSuffix_naive : (tzSuffix Option.none).data = [] := rfl

theorem data_tzSuffix_aware (off : Int) :
    (tzSuffix (some off)).data = (offsetToStr off).data := rfl

theorem daysInMonth_le (y m : Nat) : daysInMonth y m ≤ 31 := by
  unfold daysInMonth
  split
  · split <;> omega
  · split <;> omega

theorem fromisoformat_isoformat (dt : DateTime) (hv : dt.Valid) :
    fromisoformatDateTime dt.isoformat = .ok dt := by
  obtain ⟨y, mo, d, h, mi, sec, us, tz⟩ := dt
  unfold DateTime.Valid at hv
  simp only at hv
  obtain ⟨hy1, hy2, hm1, hm2, hd1, hd2, hh, hmi, hs, hus, htz⟩ := hv
  have hdmle := daysInMonth_le y mo
  have hy4 : y < 10 ^ 4 := by omega
  have hmo2 : mo < 10 ^ 2 := by omega
  have hd2b : d < 10 ^ 2 := by omega
  have hh2 : h < 10 ^ 2 := by omega
  have hmi2 : mi < 10 ^ 2 := by omega
  have hs2 : sec < 10 ^ 2 := by omega
  have hus6 : us < 10 ^ 6 := by omega
  have hvc : validComponents y mo d h mi sec = true := by
    simp only [validComponents, decide_eq_true_eq]
    exact ⟨hy1, hy2, hm1, hm2, hd1, hd2, hh, hmi, hs⟩
  unfold DateTime.isoformat DateTime.isoformatSep fromisoformatDateTime
  simp only
  rcases tz with _ | off
  · by_cases h0 : us = 0
    · subst h0
      simp only [data_fracStr_zero, data_tzSuffix_naive, data_singleton,
        data_pad, data_dash, data_colon, String.data_append,
        List.append_assoc, List.cons_append, List.nil_append, List.append_nil,
        parseDatePart_print y mo d _ hy4 hmo2 hd2b]
      rw [parseTimePart_print_nofrac_nil h mi sec hh2 hmi2 hs2]
      simp only [parseOffsetPart, hvc, if_pos]
    · simp only [data_fracStr us h0, data_tzSuffix_naive, data_singleton,
        data_pad, data_dash, data_colon, String.data_append,
        List.append_assoc, List.cons_append, List.nil_append, List.append_nil,
        parseDatePart_print y mo d _ hy4 hmo2 hd2b]
      rw [parseTimePart_print_frac_nil h mi sec us hh2 hmi2 hs2 hus6]
      simp only [parseOffsetPart, hvc, if_pos]
  · have hoffb : off.natAbs ≤ 1439 := htz off rfl
    have hophead : ∀ c cs, (offsetToStr off).data = c :: cs → c ≠ '.' := by
      intro c cs hc
      rcases offsetToStr_head_sign off c cs hc with h1 | h1 <;> subst h1 <;> decide
    by_cases h0 : us = 0
    · subst h0
      simp only [data_fracStr_zero, data_tzSuffix_aware, data_singleton,
        data_pad, data_dash, data_colon, String.data_append,
        List.append_assoc, List.cons_append, List.nil_append, List.append_nil,
        parseDatePart_print y mo d _ hy4 hmo2 hd2b]
      rw [parseTimePart_print_nofrac h mi sec ((offsetToStr off).data) hh2 hmi2
        hs2 hophead]
      simp only [parseOffsetPart_print off hoffb, hvc, if_pos]
    · simp only [data_fracStr us h0, data_tzSuffix_aware, data_singleton,
        data_pad, data_dash, data_colon, String.data_append,
        List.append_assoc, List.cons_append, List.nil_append, List.append_nil,
        parseDatePart_print y mo d _ hy4 hmo2 hd2b]
      rw [parseTimePart_print_frac h mi sec us ((offsetToStr off).data) hh2 hmi2
        hs2 hus6]
      simp only [parseOffsetPart_print off hoffb, hvc, if_pos]

/-! ## UUID canonical text

Modelled from the spec: the host `uuid` library collaborators
(`uuid.UUID(text)` and `str(uuid_value)`), which the sources call but do
not define.
-/

/-- `str(uuid.UUID)`: canonical lower-case 8-4-4-4-12 hexadecimal text of
a 128-bit value. -/
def uuidToStr (n : Nat) : String :=
  let hx := toBasePadded 16 32 n
  String.mk (hx.take 8) ++ "-" ++ String.mk ((hx.drop 8).take 4) ++ "-" ++
  String.mk ((hx.drop 12).take 4) ++ "-" ++
  String.mk ((hx.drop 16).take 4) ++ "-" ++ String.mk (hx.drop 20)

/-- Python `str.replace(pat, "")`: removes all non-overlapping occurrences
of `pat`, scanning left to right. -/
def removeSubstr (pat : List Char) : List Char → List Char
  | [] => []
  | c :: rest =>
    if hp : pat = [] then c :: rest
    else if pat.isPrefixOf (c :: rest) then
      removeSubstr pat ((c :: rest).drop pat.length)
    else c :: removeSubstr pat rest
termination_by cs => cs.length
decreasing_by
  · simp only [List.length_drop, List.length_cons]
    have hl : 1 ≤ pat.length := by
      cases pat with
      | nil => exact absurd rfl hp
      | cons _ _ => simp
    omega
  · simp

/-- Python `str.strip(chars)`: removes any run of the given characters
from both ends. -/
def stripChars (bad : List Char) (cs : List Char) : List Char :=
  ((cs.dropWhile (fun c => decide (c ∈ bad))).reverse.dropWhile
    (fun c => decide (c ∈ bad))).reverse

/-- `uuid.UUID(text)`: substring-cleanup as in the host constructor
(`replace("urn:", "")`, `replace("uuid:", "")`, `strip("{}")`,
`replace("-", "")`), a 32-character length check, then base-16 parsing;
failure is the host `ValueError`. -/
def uuidFromStr (s : String) : Except JsonError Nat :=
  let cs0 := removeSubstr ("urn:".data) s.data
  let cs1 := removeSubstr ("uuid:".data) cs0
  let cs2 := stripChars [Char.ofNat 123, Char.ofNat 125] cs1
  let cs3 := removeSubstr ['-'] cs2
  if cs3.length = 32 then
    match foldDigits 16 0 cs3 with
    | some n => .ok n
    | Option.none => .error (.valueError "badly formed hexadecimal UUID string")
  else .error (.valueError "badly formed hexadecimal UUID string")

theorem removeSubstr_of_head_not_mem (p : Char) (pat cs : List Char)
    (h : p ∉ cs) : removeSubstr (p :: pat) cs = cs := by
  induction cs with
  | nil => rw [removeSubstr]
  | cons c rest ih =>
    have hpc : (p :: pat).isPrefixOf (c :: rest) = false := by
      simp only [List.isPrefixOf, Bool.and_eq_false_iff]
      left
      simp only [beq_eq_false_iff_ne, ne_eq]
      intro hcon
      exact h (by simp [hcon])
    rw [removeSubstr, dif_neg (by simp : ¬(p :: pat = []))]
    simp only [hpc, Bool.false_eq_true, if_false, List.cons.injEq, true_and]
    exact ih (fun hm => h (by simp [hm]))

theorem removeSubstr_singleton (c : Char) (cs : List Char) :
    removeSubstr [c] cs = cs.filter (fun d => decide (d ≠ c)) := by
  induction cs with
  | nil => rw [removeSubstr]; rfl
  | cons d rest ih =>
    rw [removeSubstr]
    by_cases hdc : c = d
    · subst hdc
      have hpre : [c].isPrefixOf (c :: rest) = true := by
        simp [List.isPrefixOf]
      simp only [hpre, if_true, reduceDIte, List.length_cons,
        List.length_nil, List.drop_succ_cons, List.drop_zero]
      rw [ih]
      simp [List.filter]
    · have hpre : [c].isPrefixOf (d :: rest) = false := by
        simp only [List.isPrefixOf, Bool.and_eq_false_iff]
        left
        simp only [beq_eq_false_iff_ne, ne_eq]
        exact hdc
      simp only [hpre, Bool.false_eq_true, if_false, reduceDIte]
      rw [ih]
      have hne : decide (d ≠ c) = true := by
        simp
        exact fun hx => hdc hx.symm
      simp [List.filter, hne]

theorem dropWhile_of_head_not {p : Char → Bool} :
    ∀ (l : List Char), (∀ c ∈ l, p c = false) →
      l.dropWhile p = l := by
  intro l hl
  cases l with
  | nil => rfl
  | cons a t => rw [List.dropWhile_cons, hl a (by simp)]; simp

theorem stripChars_of_all_not_mem (bad cs : List Char)
    (h : ∀ c ∈ cs, c ∉ bad) : stripChars bad cs = cs := by
  unfold stripChars
  rw [dropWhile_of_head_not cs (fun c hc => by simp [h c hc]),
    dropWhile_of_head_not cs.reverse
      (fun c hc => by simp [h c (by simpa using hc)]),
    List.reverse_reverse]

theorem toBasePadded_length (b : Nat) : ∀ w n, (toBasePadded b w n).length = w := by
  intro w
  induction w with
  | zero => intro n; rfl
  | succ w ih => intro n; simp [toBasePadded, ih]

theorem digitChar_toNat_ranges (d : Nat) (hd : d < 16) :
    (48 ≤ (digitChar d).toNat ∧ (digitChar d).toNat ≤ 57) ∨
      (97 ≤ (digitChar d).toNat ∧ (digitChar d).toNat ≤ 102) := by
  unfold digitChar
  by_cases h10 : d < 10
  · rw [if_pos h10, char_toNat_ofNat _ (by omega)]
    left
    omega
  · rw [if_neg h10, char_toNat_ofNat _ (by omega)]
    right
    omega

theorem mem_toBasePadded_toNat (w : Nat) :
    ∀ n, n < 16 ^ w → ∀ c ∈ toBasePadded 16 w n,
      (48 ≤ c.toNat ∧ c.toNat ≤ 57) ∨ (97 ≤ c.toNat ∧ c.toNat ≤ 102) := by
  induction w with
  | zero => intro n hn c hc; simp [toBasePadded] at hc
  | succ w ih =>
    intro n hn c hc
    have hbw : 0 < (16:Nat) ^ w := Nat.pos_pow_of_pos w (by omega)
    have hdig : n / 16 ^ w < 16 := by
      have hmul : n < 16 ^ w * 16 := by
        calc n < 16 ^ (w + 1) := hn
        _ = 16 ^ w * 16 := by ring
      exact Nat.div_lt_of_lt_mul hmul
    rcases (by simpa [toBasePadded] using hc :
        c = digitChar (n / 16 ^ w) ∨ c ∈ toBasePadded 16 w (n % 16 ^ w)) with
      hc1 | hc2
    · subst hc1
      exact digitChar_toNat_ranges (n / 16 ^ w) hdig
    · exact ih (n % 16 ^ w) (Nat.mod_lt _ hbw) c hc2

theorem hex_ne_special {c : Char}
    (hr : (48 ≤ c.toNat ∧ c.toNat ≤ 57) ∨ (97 ≤ c.toNat ∧ c.toNat ≤ 102)) :
    c ≠ 'u' ∧ c ∉ ([Char.ofNat 123, Char.ofNat 125] : List Char) ∧
      decide (c ≠ '-') = true := by
  have h123 : (Char.ofNat 123).toNat = 123 := char_toNat_ofNat _ (by omega)
  have h125 : (Char.ofNat 125).toNat = 125 := char_toNat_ofNat _ (by omega)
  have hu : ('u').toNat = 117 := rfl
  have hdash : ('-').toNat = 45 := rfl
  refine ⟨?_, ?_, ?_⟩
  · intro he
    have := congrArg Char.toNat he
    rw [hu] at this
    omega
  · intro hm
    rcases (by simpa using hm : c = Char.ofNat 123 ∨ c = Char.ofNat 125) with
      he | he <;>
    · have := congrArg Char.toNat he
      simp only [h123, h125] at this
      omega
  · simp only [decide_eq_true_eq, ne_eq]
    intro he
    have := congrArg Char.toNat he
    rw [hdash] at this
    omega

theorem uuidFromStr_uuidToStr (n : Nat) (h : n < 2 ^ 128) :
    uuidFromStr (uuidToStr n) = .ok n := by
  have h16 : n < 16 ^ 32 := by
    have : (16:Nat) ^ 32 = 2 ^ 128 := by norm_num
    omega
  have hlen := toBasePadded_length 16 32 n
  have hmem := mem_toBasePadded_toNat 32 n h16
  have hdata : (uuidToStr n).data =
      (toBasePadded 16 32 n).take 8 ++ '-' ::
        (((toBasePadded 16 32 n).drop 8).take 4 ++ '-' ::
          (((toBasePadded 16 32 n).drop 12).take 4 ++ '-' ::
            (((toBasePadded 16 32 n).drop 16).take 4 ++ '-' ::
              (toBasePadded 16 32 n).drop 20))) := by
    unfold uuidToStr
    simp [String.data_append, data_mk, data_dash]
  have hmemcs : ∀ c ∈ (uuidToStr n).data,
      c = '-' ∨ ((48 ≤ c.toNat ∧ c.toNat ≤ 57) ∨
        (97 ≤ c.toNat ∧ c.toNat ≤ 102)) := by
    intro c hc
    rw [hdata] at hc
    simp only [List.mem_append, List.mem_cons] at hc
    rcases hc with hc | hc | hc
    · exact Or.inr (hmem c (List.mem_of_mem_take hc))
    · exact Or.inl hc
    · rcases hc with hc | hc | hc
      · exact Or.inr (hmem c (List.mem_of_mem_drop (List.mem_of_mem_take hc)))
      · exact Or.inl hc
      · rcases hc with hc | hc | hc
        · exact Or.inr (hmem c (List.mem_of_mem_drop (List.mem_of_mem_take hc)))
        · exact Or.inl hc
        · rcases hc with hc | hc | hc
          · exact Or.inr
              (hmem c (List.mem_of_mem_drop (List.mem_of_mem_take hc)))
          · exact Or.inl hc
          · exact Or.inr (hmem c (List.mem_of_mem_drop hc))
  unfold uuidFromStr
  simp only []
  have hnu : 'u' ∉ (uuidToStr n).data := by
    intro hm
    rcases hmemcs 'u' hm with hc | hc
    · exact absurd (congrArg Char.toNat hc) (by decide)
    · revert hc
      decide
  rw [removeSubstr_of_head_not_mem 'u' ['r', 'n', ':'] _ hnu,
    removeSubstr_of_head_not_mem 'u' ['u', 'i', 'd', ':'] _ hnu,
    stripChars_of_all_not_mem _ _
      (fun c hc => by
        rcases hmemcs c hc with h1 | h1
        · subst h1
          intro hm
          rcases (by simpa using hm :
              '-' = Char.ofNat 123 ∨ '-' = Char.ofNat 125) with he | he
          · exact absurd (congrArg Char.toNat he)
              (by rw [char_toNat_ofNat 123 (by omega)]; decide)
          · exact absurd (congrArg Char.toNat he)
              (by rw [char_toNat_ofNat 125 (by omega)]; decide)
        · exact (hex_ne_special h1).2.1),
    removeSubstr_singleton '-' _]
  rw [hdata]
  have hseg : ∀ (l : List Char), (∀ c ∈ l, c ∈ toBasePadded 16 32 n) →
      l.filter (fun d => decide (d ≠ '-')) = l := by
    intro l hl
    rw [List.filter_eq_self]
    intro c hc
    exact (hex_ne_special (hmem c (hl c hc))).2.2
  simp only [List.filter_append, List.filter_cons]
  rw [hseg _ (fun c hc => List.mem_of_mem_take hc),
    hseg _ (fun c hc => List.mem_of_mem_drop (List.mem_of_mem_take hc)),
    hseg _ (fun c hc => List.mem_of_mem_drop (List.mem_of_mem_take hc)),
    hseg _ (fun c hc => List.mem_of_mem_drop (List.mem_of_mem_take hc)),
    hseg _ (fun c hc => List.mem_of_mem_drop hc)]
  norm_num
  have e1 : ((toBasePadded 16 32 n).drop 16).take 4 ++
      (toBasePadded 16 32 n).drop 20 = (toBasePadded 16 32 n).drop 16 := by
    have e := List.take_append_drop 4 ((toBasePadded 16 32 n).drop 16)
    rw [List.drop_drop] at e
    norm_num at e
    exact e
  have e2 : ((toBasePadded 16 32 n).drop 12).take 4 ++
      (toBasePadded 16 32 n).drop 16 = (toBasePadded 16 32 n).drop 12 := by
    have e := List.take_append_drop 4 ((toBasePadded 16 32 n).drop 12)
    rw [List.drop_drop] at e
    norm_num at e
    exact e
  have e3 : ((toBasePadded 16 32 n).drop 8).take 4 ++
      (toBasePadded 16 32 n).drop 12 = (toBasePadded 16 32 n).drop 8 := by
    have e := List.take_append_drop 4 ((toBasePadded 16 32 n).drop 8)
    rw [List.drop_drop] at e
    norm_num at e
    exact e
  have e4 : (toBasePadded 16 32 n).take 8 ++ (toBasePadded 16 32 n).drop 8 =
      toBasePadded 16 32 n := List.take_append_drop 8 _
  rw [e1, e2, e3, e4]
  have hfold := foldDigits_toBasePadded 16 (by omega) (by omega) 32 n 0 h16
  rw [hfold]
  norm_num
  intro hcon
  rw [hlen] at hcon
  norm_num at hcon

/-! ## Base64

Modelled from the spec: the host `base64` library collaborators
(`b64encode`, `b64decode`), which the sources call but do not define.
Decoding follows the host's default non-strict behavior: characters
outside the alphabet are discarded, and malformed padding raises
`binascii.Error`, a `ValueError` subclass.
-/

def b64Char (i : Nat) : Char :=
  if i < 26 then Char.ofNat (65 + i)
  else if i < 52 then Char.ofNat (97 + (i - 26))
  else if i < 62 then Char.ofNat (48 + (i - 52))
  else if i = 62 then '+'
  else '/'

def b64Index (c : Char) : Option Nat :=
  if 65 ≤ c.toNat ∧ c.toNat ≤ 90 then some (c.toNat - 65)
  else if 97 ≤ c.toNat ∧ c.toNat ≤ 122 then some (c.toNat - 97 + 26)
  else if 48 ≤ c.toNat ∧ c.toNat ≤ 57 then some (c.toNat - 48 + 52)
  else if c = '+' then some 62
  else if c = '/' then some 63
  else Option.none

/-- `base64.b64encode(bs).decode("ascii")`: 3-byte groups become 4
alphabet characters; a final group of 1 or 2 bytes is padded with `=`. -/
def b64encode : List Nat → List Char
  | [] => []
  | [a] => [b64Char (a / 4), b64Char (a % 4 * 16), '=', '=']
  | [a, b] => [b64Char (a / 4), b64Char (a % 4 * 16 + b / 16),
      b64Char (b % 16 * 4), '=']
  | a :: b :: c :: rest =>
      b64Char (a / 4) :: b64Char (a % 4 * 16 + b / 16) ::
      b64Char (b % 16 * 4 + c / 64) :: b64Char (c % 64) :: b64encode rest

/-- The quad-decoding loop of `binascii.a2b_base64` over the retained
characters. -/
def b64decodeGroups : List Char → Except JsonError (List Nat)
  | [] => .ok []
  | a :: b :: c :: d :: rest =>
    match b64Index a, b64Index b with
    | some i1, some i2 =>
      if c = '=' then
        if d = '=' then
          match b64decodeGroups rest with
          | .ok bs => .ok ((i1 * 4 + i2 / 16) :: bs)
          | .error e => .error e
        else .error (.valueError "Incorrect padding")
      else
        match b64Index c with
        | some i3 =>
          if d = '=' then
            match b64decodeGroups rest with
            | .ok bs => .ok ((i1 * 4 + i2 / 16) ::
                (i2 % 16 * 16 + i3 / 4) :: bs)
            | .error e => .error e
          else
            match b64Index d with
            | some i4 =>
              match b64decodeGroups rest with
              | .ok bs => .ok ((i1 * 4 + i2 / 16) ::
                  (i2 % 16 * 16 + i3 / 4) :: (i3 % 4 * 64 + i4) :: bs)
              | .error e => .error e
            | Option.none => .error (.valueError "Invalid base64-encoded string")
        | Option.none => .error (.valueError "Invalid base64-encoded string")
    | _, _ => .error (.valueError "Invalid base64-encoded string")
  | _ => .error (.valueError "Incorrect padding")

/-- `base64.b64decode(text)` under the default non-strict validation. -/
def b64decode (s : String) : Except JsonError (List Nat) :=
  b64decodeGroups
    (s.data.filter (fun c => (b64Index c).isSome || c = '='))

theorem b64Index_b64Char (i : Nat) (hi : i < 64) :
    b64Index (b64Char i) = some i := by
  unfold b64Char b64Index
  by_cases h1 : i < 26
  · rw [if_pos h1, char_toNat_ofNat (65 + i) (by omega)]
    rw [if_pos (by omega)]
    congr 1
    omega
  · rw [if_neg h1]
    by_cases h2 : i < 52
    · rw [if_pos h2, char_toNat_ofNat (97 + (i - 26)) (by omega)]
      rw [if_neg (by omega), if_pos (by omega)]
      congr 1
      omega
    · rw [if_neg h2]
      by_cases h3 : i < 62
      · rw [if_pos h3, char_toNat_ofNat (48 + (i - 52)) (by omega)]
        rw [if_neg (by omega), if_neg (by omega), if_pos (by omega)]
        congr 1
        omega
      · rw [if_neg h3]
        by_cases h4 : i = 62
        · subst h4
          decide
        · have h63 : i = 63 := by omega
          subst h63
          decide

theorem b64Char_kept (i : Nat) (hi : i < 64) :
    ((b64Index (b64Char i)).isSome || (b64Char i = '=' : Bool)) = true := by
  rw [b64Index_b64Char i hi]
  rfl

theorem b64Index_ne_eq (x : Nat) (hx : x < 64) : b64Char x ≠ '=' := by
  intro he
  have hidx := b64Index_b64Char x hx
  rw [he] at hidx
  have hnone : b64Index '=' = Option.none := by decide
  rw [hnone] at hidx
  exact Option.noConfusion hidx

theorem b64decodeGroups_b64encode (bs : List Nat) (h : ∀ x ∈ bs, x < 256) :
    b64decodeGroups (b64encode bs) = .ok bs := by
  induction bs using b64encode.induct with
  | case1 => rfl
  | case2 a =>
    have ha : a < 256 := h a (by simp)
    rw [b64encode]
    simp only [b64decodeGroups,
      b64Index_b64Char (a / 4) (by omega : a / 4 < 64),
      b64Index_b64Char (a % 4 * 16) (by omega : a % 4 * 16 < 64),
      reduceIte, Except.ok.injEq, List.cons.injEq, and_true]
    omega
  | case3 a b =>
    have ha : a < 256 := h a (by simp)
    have hb : b < 256 := h b (by simp)
    have hne : b64Char (b % 16 * 4) ≠ '=' := b64Index_ne_eq _ (by omega)
    rw [b64encode]
    simp only [b64decodeGroups,
      b64Index_b64Char (a / 4) (by omega : a / 4 < 64),
      b64Index_b64Char (a % 4 * 16 + b / 16)
        (by omega : a % 4 * 16 + b / 16 < 64)]
    rw [if_neg hne]
    simp only [b64Index_b64Char (b % 16 * 4) (by omega : b % 16 * 4 < 64),
      reduceIte, Except.ok.injEq, List.cons.injEq, and_true]
    omega
  | case4 a b c rest ih =>
    have ha : a < 256 := h a (by simp)
    have hb : b < 256 := h b (by simp)
    have hcc : c < 256 := h c (by simp)
    have hne3 : b64Char (b % 16 * 4 + c / 64) ≠ '=' :=
      b64Index_ne_eq _ (by omega)
    have hne4 : b64Char (c % 64) ≠ '=' := b64Index_ne_eq _ (by omega)
    rw [b64encode]
    simp only [b64decodeGroups,
      b64Index_b64Char (a / 4) (by omega : a / 4 < 64),
      b64Index_b64Char (a % 4 * 16 + b / 16)
        (by omega : a % 4 * 16 + b / 16 < 64)]
    rw [if_neg hne3]
    simp only [b64Index_b64Char (b % 16 * 4 + c / 64)
      (by omega : b % 16 * 4 + c / 64 < 64)]
    rw [if_neg hne4]
    simp only [b64Index_b64Char (c % 64) (by omega : c % 64 < 64)]
    rw [ih (fun x hx => h x (by simp [hx]))]
    simp only [Except.ok.injEq, List.cons.injEq, and_true]
    omega

theorem mem_b64encode_kept (bs : List Nat) (h : ∀ x ∈ bs, x < 256) :
    ∀ ch ∈ b64encode bs,
      ((b64Index ch).isSome || (ch = '=' : Bool)) = true := by
  induction bs using b64encode.induct with
  | case1 => intro ch hch; simp [b64encode] at hch
  | case2 a =>
    intro ch hch
    have ha : a < 256 := h a (by simp)
    rcases (by simpa [b64encode] using hch :
        ch = b64Char (a / 4) ∨ ch = b64Char (a % 4 * 16) ∨ ch = '=') with
      h1 | h1 | h1 <;> subst h1
    · exact b64Char_kept _ (by omega)
    · exact b64Char_kept _ (by omega)
    · decide
  | case3 a b =>
    intro ch hch
    have ha : a < 256 := h a (by simp)
    have hb : b < 256 := h b (by simp)
    rcases (by simpa [b64encode] using hch :
        ch = b64Char (a / 4) ∨ ch = b64Char (a % 4 * 16 + b / 16) ∨
          ch = b64Char (b % 16 * 4) ∨ ch = '=') with h1 | h1 | h1 | h1 <;>
      subst h1
    · exact b64Char_kept _ (by omega)
    · exact b64Char_kept _ (by omega)
    · exact b64Char_kept _ (by omega)
    · decide
  | case4 a b c rest ih =>
    intro ch hch
    have ha : a < 256 := h a (by simp)
    have hb : b < 256 := h b (by simp)
    have hcc : c < 256 := h c (by simp)
    rcases (by simpa [b64encode] using hch :
        ch = b64Char (a / 4) ∨ ch = b64Char (a % 4 * 16 + b / 16) ∨
          ch = b64Char (b % 16 * 4 + c / 64) ∨ ch = b64Char (c % 64) ∨
            ch ∈ b64encode rest) with h1 | h1 | h1 | h1 | h1
    · subst h1; exact b64Char_kept _ (by omega)
    · subst h1; exact b64Char_kept _ (by omega)
    · subst h1; exact b64Char_kept _ (by omega)
    · subst h1; exact b64Char_kept _ (by omega)
    · exact ih (fun x hx => h x (by simp [hx])) ch h1

theorem b64decode_b64encode (bs : List Nat) (h : ∀ x ∈ bs, x < 256) :
    b64decode (String.mk (b64encode bs)) = .ok bs := by
  unfold b64decode
  rw [data_mk]
  rw [List.filter_eq_self.mpr (mem_b64encode_kept bs h)]
  exact b64decodeGroups_b64encode bs h

/-! ## Python text rendering

Modelled from the spec: host `str()`/`repr()` rendering, used by the
codec inside f-string error messages and by the encoder for non-enum
dictionary keys.  Escape sequences inside string reprs and some
host-specific repr details (e.g. the exact constructor-style repr of
datetimes) are simplified; the kind and the identifying content of every
message are preserved.
-/

def pyBoolStr (b : Bool) : String := if b then "True" else "False"

/-- Host `repr` of a float; `float(n)` renders as the integer followed by
`.0`, an uninterpreted double by its stored repr text. -/
def floatRepr : PyFloat → String
  | .ofInt n => String.mk (intToStr n) ++ ".0"
  | .lit s => s

def primRepr : Prim → String
  | .pnull => "None"
  | .pbool b => pyBoolStr b
  | .pint n => String.mk (intToStr n)
  | .pfloat x => floatRepr x
  | .pstr s => "\x27" ++ s ++ "\x27"

def primStr : Prim → String
  | .pstr s => s
  | p => primRepr p

mutual

def jsonRepr : JsonValue → String
  | .null => "None"
  | .jbool b => pyBoolStr b
  | .jint n => String.mk (intToStr n)
  | .jfloat x => floatRepr x
  | .jstr s => "\x27" ++ s ++ "\x27"
  | .arr items => "[" ++ jsonReprItems items ++ "]"
  | .obj members => "\x7b" ++ jsonReprMembers members ++ "\x7d"

def jsonReprItems : List JsonValue → String
  | [] => ""
  | [x] => jsonRepr x
  | x :: y :: xs => jsonRepr x ++ ", " ++ jsonReprItems (y :: xs)

def jsonReprMembers : List (Prim × JsonValue) → String
  | [] => ""
  | [(k, v)] => primRepr k ++ ": " ++ jsonRepr v
  | (k, v) :: m :: ms =>
      primRepr k ++ ": " ++ jsonRepr v ++ ", " ++ jsonReprMembers (m :: ms)

end

/-- Host `str()` of a JSON-compatible value, as interpolated by the
f-string error messages of the codec. -/
def jsonStr : JsonValue → String
  | .jstr s => s
  | v => jsonRepr v

mutual

def pyRepr : Value → String
  | .none => "None"
  | .bool b => pyBoolStr b
  | .int n => String.mk (intToStr n)
  | .float x => floatRepr x
  | .str s => "\x27" ++ s ++ "\x27"
  | .bytes bs => "b\x27" ++ String.mk (bs.map Char.ofNat) ++ "\x27"
  | .datetime dt => "datetime.datetime(" ++ dt.isoformatSep ' ' ++ ")"
  | .date d => "datetime.date(" ++ d.isoformat ++ ")"
  | .time t => "datetime.time(" ++ t.isoformat ++ ")"
  | .uuid n => "UUID(\x27" ++ uuidToStr n ++ "\x27)"
  | .enum cls mem v => "<" ++ cls ++ "." ++ mem ++ ": " ++ primRepr v ++ ">"
  | .list xs => "[" ++ pyReprItems xs ++ "]"
  | .tuple [x] => "(" ++ pyRepr x ++ ",)"
  | .tuple xs => "(" ++ pyReprItems xs ++ ")"
  | .set [] => "set()"
  | .set xs => "\x7b" ++ pyReprItems xs ++ "\x7d"
  | .dict kvs => "\x7b" ++ pyReprEntries kvs ++ "\x7d"
  | .record cls fields => cls ++ "(" ++ pyReprFields fields ++ ")"
  | .ntuple cls fields => cls ++ "(" ++ pyReprFields fields ++ ")"

def pyReprItems : List Value → String
  | [] => ""
  | [x] => pyRepr x
  | x :: y :: xs => pyRepr x ++ ", " ++ pyReprItems (y :: xs)

def pyReprEntries : List (Value × Value) → String
  | [] => ""
  | [(k, v)] => pyRepr k ++ ": " ++ pyRepr v
  | (k, v) :: m :: ms =>
      pyRepr k ++ ": " ++ pyRepr v ++ ", " ++ pyReprEntries (m :: ms)

def pyReprFields : List (String × Value) → String
  | [] => ""
  | [(n, v)] => n ++ "=" ++ pyRepr v
  | (n, v) :: m :: ms =>
      n ++ "=" ++ pyRepr v ++ ", " ++ pyReprFields (m :: ms)

end

/-- Host `str()` of a Python value, as used by the encoder for non-enum
dictionary keys (`str(key)`) and in error messages. -/
def pyStr : Value → String
  | .str s => s
  | .datetime dt => dt.isoformatSep ' '
  | .date d => d.isoformat
  | .time t => t.isoformat
  | .uuid n => uuidToStr n
  | .enum cls mem _ => cls ++ "." ++ mem
  | v => pyRepr v

mutual

/-- Modelled from the spec: rendering of type references for error
messages (`python_type_to_str` from the `name` module, which is not among
the sources, and the host repr of `typing` objects; the spec scopes this
to "string-literal formatting of type names used only for error
messages"). -/
def typeStr : Typ → String
  | .noneType => "None"
  | .bool => "bool"
  | .int => "int"
  | .float => "float"
  | .str => "str"
  | .bytes => "bytes"
  | .datetime => "datetime"
  | .date => "date"
  | .time => "time"
  | .uuid => "UUID"
  | .list t => "List[" ++ typeStr t ++ "]"
  | .dict k v => "Dict[" ++ typeStr k ++ ", " ++ typeStr v ++ "]"
  | .set t => "Set[" ++ typeStr t ++ "]"
  | .tuple ts => "Tuple[" ++ typeStrList ts ++ "]"
  | .union ts => "Union[" ++ typeStrList ts ++ "]"
  | .enum cls _ => cls
  | .dataclass cls _ => cls
  | .namedtuple cls _ => cls
  | .annotated t _ => "Annotated[" ++ typeStr t ++ "]"

def typeStrList : List Typ → String
  | [] => ""
  | [t] => typeStr t
  | t :: u :: ts => typeStr t ++ ", " ++ typeStrList (u :: ts)

end

/-! ## Python equality, set and dict construction -/

mutual

/-- Python `==` on modelled values (structural; cross-kind numeric
coercion such as `True == 1` or `1 == 1.0` is not modelled, and `set`
comparison uses the model's fixed iteration order).  The codec uses it
only through `set` and `dict` construction, whose members/keys are
hashable values, where structural equality agrees with the host. -/
def valueEqB : Value → Value → Bool
  | .none, .none => true
  | .bool a, .bool b => a == b
  | .int a, .int b => a == b
  | .float a, .float b => a == b
  | .str a, .str b => a == b
  | .bytes a, .bytes b => a == b
  | .datetime a, .datetime b => a == b
  | .date a, .date b => a == b
  | .time a, .time b => a == b
  | .uuid a, .uuid b => a == b
  | .enum c1 m1 v1, .enum c2 m2 v2 => c1 == c2 && m1 == m2 && v1 == v2
  | .list xs, .list ys => valueListEqB xs ys
  | .dict xs, .dict ys => valueEntriesEqB xs ys
  | .set xs, .set ys => valueListEqB xs ys
  | .tuple xs, .tuple ys => valueListEqB xs ys
  | .record c1 f1, .record c2 f2 => c1 == c2 && valueFieldsEqB f1 f2
  | .ntuple c1 f1, .ntuple c2 f2 => c1 == c2 && valueFieldsEqB f1 f2
  | _, _ => false

def valueListEqB : List Value → List Value → Bool
  | [], [] => true
  | x :: xs, y :: ys => valueEqB x y && valueListEqB xs ys
  | _, _ => false

def valueEntriesEqB : List (Value × Value) → List (Value × Value) → Bool
  | [], [] => true
  | (k1, v1) :: xs, (k2, v2) :: ys =>
      valueEqB k1 k2 && valueEqB v1 v2 && valueEntriesEqB xs ys
  | _, _ => false

def valueFieldsEqB : List (String × Value) → List (String × Value) → Bool
  | [], [] => true
  | (n1, v1) :: xs, (n2, v2) :: ys =>
      n1 == n2 && valueEqB v1 v2 && valueFieldsEqB xs ys
  | _, _ => false

end

/-- Python `set(iterable)`: keeps the first occurrence of each distinct
member; the model fixes iteration order as insertion order. -/
def pySetOfList (xs : List Value) : List Value :=
  xs.foldl
    (fun acc x => if acc.any (fun y => valueEqB y x) then acc else acc ++ [x])
    []

/-- Python `dict(pairs)`: a later pair with an equal key overwrites the
value in place, keeping the original position and key object. -/
def pyDictOfList (kvs : List (Value × Value)) : List (Value × Value) :=
  kvs.foldl
    (fun acc kv =>
      if acc.any (fun p => valueEqB p.1 kv.1) then
        acc.map (fun p => if valueEqB p.1 kv.1 then (p.1, kv.2) else p)
      else acc ++ [kv])
    []

theorem pySetOfList_of_pairwise (xs : List Value)
    (h : xs.Pairwise (fun a b => valueEqB a b = false)) :
    pySetOfList xs = xs := by
  unfold pySetOfList
  suffices hgen : ∀ (acc : List Value),
      (∀ y ∈ acc, ∀ x ∈ xs, valueEqB y x = false) →
      xs.Pairwise (fun a b => valueEqB a b = false) →
      xs.foldl (fun acc x =>
        if acc.any (fun y => valueEqB y x) then acc else acc ++ [x]) acc =
        acc ++ xs by
    have := hgen [] (by simp) h
    simpa using this
  clear h
  induction xs with
  | nil => intro acc _ _; simp
  | cons x xs ih =>
    intro acc hacc hpw
    rw [List.foldl_cons]
    have hany : acc.any (fun y => valueEqB y x) = false := by
      rw [List.any_eq_false]
      intro y hy
      simp only [Bool.not_eq_true]
      exact hacc y hy x (by simp)
    rw [hany]
    simp only [Bool.false_eq_true, if_false]
    rw [ih (acc ++ [x])
      (by
        intro y hy z hz
        rcases List.mem_append.mp hy with hy1 | hy1
        · exact hacc y hy1 z (by simp [hz])
        · have hyx : y = x := by simpa using hy1
          subst hyx
          exact (List.pairwise_cons.mp hpw).1 z hz)
      (List.pairwise_cons.mp hpw).2]
    simp

theorem pyDictOfList_of_pairwise (kvs : List (Value × Value))
    (h : kvs.Pairwise (fun a b => valueEqB a.1 b.1 = false)) :
    pyDictOfList kvs = kvs := by
  unfold pyDictOfList
  suffices hgen : ∀ (acc : List (Value × Value)),
      (∀ p ∈ acc, ∀ q ∈ kvs, valueEqB p.1 q.1 = false) →
      kvs.Pairwise (fun a b => valueEqB a.1 b.1 = false) →
      kvs.foldl (fun acc kv =>
        if acc.any (fun p => valueEqB p.1 kv.1) then
          acc.map (fun p => if valueEqB p.1 kv.1 then (p.1, kv.2) else p)
        else acc ++ [kv]) acc = acc ++ kvs by
    have := hgen [] (by simp) h
    simpa using this
  clear h
  induction kvs with
  | nil => intro acc _ _; simp
  | cons kv kvs ih =>
    intro acc hacc hpw
    rw [List.foldl_cons]
    have hany : acc.any (fun p => valueEqB p.1 kv.1) = false := by
      rw [List.any_eq_false]
      intro p hp
      simp only [Bool.not_eq_true]
      exact hacc p hp kv (by simp)
    rw [hany]
    simp only [Bool.false_eq_true, if_false]
    rw [ih (acc ++ [kv])
      (by
        intro p hp q hq
        rcases List.mem_append.mp hp with hp1 | hp1
        · exact hacc p hp1 q (by simp [hq])
        · have hpk : p = kv := by simpa using hp1
          subst hpk
          exact (List.pairwise_cons.mp hpw).1 q hq)
      (List.pairwise_cons.mp hpw).2]
    simp

/-! ## Inspection utilities (`inspection.py`) -/

/-- `unwrap_annotated_type`: strips one `Annotated` wrapper. -/
def unwrap_annotated_type : Typ → Typ
  | .annotated inner _ => inner
  | t => t

/-- `_is_union_like`: `Union[...]` and `T1 | T2` are both modelled by
`Typ.union`. -/
def is_union_like : Typ → Bool
  | .union _ => true
  | _ => false

/-- `typ is type(None)`. -/
def Typ.isNoneType : Typ → Bool
  | .noneType => true
  | _ => false

/-- `is_type_optional(typ, strict)`. -/
def is_type_optional (typ : Typ) (strict : Bool) : Bool :=
  match unwrap_annotated_type typ with
  | .union args =>
    if strict && args.length != 2 then false
    else args.any Typ.isNoneType
  | _ => false

/-- `_unwrap_optional_type`: rebuilds `Union[...]` over the members that
are not the none type (a singleton collapses to the member itself, as
`Union[T]` does); an empty member tuple raises the host `TypeError` that
`Union[()]` raises, and a non-union argument raises the function's own
`TypeError`. -/
def unwrap_optional_type_core (typ : Typ) : Except JsonError Typ :=
  match typ with
  | .union args =>
    match args.filter (fun t => ! t.isNoneType) with
    | [] => .error (.typeError "Cannot take a Union of no types.")
    | [t] => .ok t
    | t :: u :: ts => .ok (.union (t :: u :: ts))
  | _ =>
    .error (.typeError "optional type must have un-subscripted type of Union")

/-- `unwrap_optional_type` =
`rewrap_annotated_type(_unwrap_optional_type, typ)`: un-boxes an
`Annotated` wrapper, transforms, and re-boxes. -/
def unwrap_optional_type (typ : Typ) : Except JsonError Typ :=
  match typ with
  | .annotated inner meta =>
    match unwrap_optional_type_core inner with
    | .ok t => .ok (.annotated t meta)
    | .error e => .error e
  | t => unwrap_optional_type_core t

/-- `is_type_union`. -/
def is_type_union (typ : Typ) : Bool :=
  match unwrap_annotated_type typ with
  | .union args => args.length > 2 || ! (args.any Typ.isNoneType)
  | _ => false

/-- `unwrap_union_types` (`_unwrap_union_types`). -/
def unwrap_union_types (typ : Typ) : Except JsonError (List Typ) :=
  match typ with
  | .union args => .ok args
  | _ =>
    .error (.typeError "union type must have un-subscripted type of Union")

/-- Modelled from the spec: the injected naming-policy function
`python_id_to_json_field(name, type)` from the `mapping` module, which is
not among the sources; the spec scopes it out as "field-name
transformation policy — consumed here only as an injected naming
function".  Modelled as the identity policy, under which a field's
serialized name is its declared name. -/
def python_id_to_json_field (name : String) (_ftype : Option Typ) : String :=
  name

theorem sizeOf_filter_le (p : Typ → Bool) (l : List Typ) :
    sizeOf (l.filter p) ≤ sizeOf l := by
  induction l with
  | nil => simp
  | cons t ts ih =>
    rw [List.filter_cons]
    by_cases hp : p t = true
    · simp only [hp, if_pos]
      simp only [List.cons.sizeOf_spec]
      omega
    · simp only [hp, Bool.false_eq_true, if_false]
      simp only [List.cons.sizeOf_spec]
      omega

theorem sizeOf_mem_lt {a : Typ} {l : List Typ} (h : a ∈ l) :
    sizeOf a < sizeOf l := by
  induction l with
  | nil => simp at h
  | cons t ts ih =>
    simp only [List.cons.sizeOf_spec]
    rcases List.mem_cons.mp h with h1 | h1
    · subst h1
      omega
    · have := ih h1
      omega

theorem unwrap_core_union_eq (args : List Typ) :
    unwrap_optional_type_core (.union args) =
      match args.filter (fun t => ! t.isNoneType) with
      | [] => .error (.typeError "Cannot take a Union of no types.")
      | [t] => .ok t
      | t :: u :: ts => .ok (.union (t :: u :: ts)) := rfl

theorem unwrap_opt_annotated_eq (inner : Typ) (meta : List String) :
    unwrap_optional_type (.annotated inner meta) =
      match unwrap_optional_type_core inner with
      | .ok t => .ok (.annotated t meta)
      | .error e => .error e := rfl

theorem unwrap_optional_type_core_sizeOf (t rt : Typ)
    (h : unwrap_optional_type_core t = .ok rt) : sizeOf rt ≤ sizeOf t := by
  cases t with
  | union args =>
    rw [unwrap_core_union_eq] at h
    cases hf : args.filter (fun t => ! t.isNoneType) with
    | nil =>
      rw [hf] at h
      exact absurd h (by simp)
    | cons t1 rest =>
      cases rest with
      | nil =>
        rw [hf] at h
        have ht1 : t1 ∈ args :=
          List.mem_of_mem_filter (hf ▸ List.mem_singleton_self t1)
        have hsz := sizeOf_mem_lt ht1
        have hrt : rt = t1 := by
          injection h with h1
          exact h1.symm
        subst hrt
        simp only [Typ.union.sizeOf_spec]
        omega
      | cons t2 ts =>
        rw [hf] at h
        have hrt : rt = .union (t1 :: t2 :: ts) := by
          injection h with h1
          exact h1.symm
        subst hrt
        have hle := sizeOf_filter_le (fun t => ! t.isNoneType) args
        rw [hf] at hle
        simp only [Typ.union.sizeOf_spec]
        omega
  | annotated inner meta => exact absurd h (by simp [unwrap_optional_type_core])
  | noneType => exact absurd h (by simp [unwrap_optional_type_core])
  | bool => exact absurd h (by simp [unwrap_optional_type_core])
  | int => exact absurd h (by simp [unwrap_optional_type_core])
  | float => exact absurd h (by simp [unwrap_optional_type_core])
  | str => exact absurd h (by simp [unwrap_optional_type_core])
  | bytes => exact absurd h (by simp [unwrap_optional_type_core])
  | datetime => exact absurd h (by simp [unwrap_optional_type_core])
  | date => exact absurd h (by simp [unwrap_optional_type_core])
  | time => exact absurd h (by simp [unwrap_optional_type_core])
  | uuid => exact absurd h (by simp [unwrap_optional_type_core])
  | list _ => exact absurd h (by simp [unwrap_optional_type_core])
  | dict _ _ => exact absurd h (by simp [unwrap_optional_type_core])
  | set _ => exact absurd h (by simp [unwrap_optional_type_core])
  | tuple _ => exact absurd h (by simp [unwrap_optional_type_core])
  | enum _ _ => exact absurd h (by simp [unwrap_optional_type_core])
  | dataclass _ _ => exact absurd h (by simp [unwrap_optional_type_core])
  | namedtuple _ _ => exact absurd h (by simp [unwrap_optional_type_core])

theorem unwrap_optional_type_sizeOf (t rt : Typ)
    (h : unwrap_optional_type t = .ok rt) : sizeOf rt ≤ sizeOf t := by
  cases t with
  | annotated inner meta =>
    rw [unwrap_opt_annotated_eq] at h
    cases hc : unwrap_optional_type_core inner with
    | error e =>
      rw [hc] at h
      exact absurd h (by simp)
    | ok t2 =>
      rw [hc] at h
      have hlt := unwrap_optional_type_core_sizeOf inner t2 hc
      have hrt : rt = .annotated t2 meta := by
        injection h with h1
        exact h1.symm
      subst hrt
      simp only [Typ.annotated.sizeOf_spec]
      omega
  | union args =>
    exact unwrap_optional_type_core_sizeOf _ rt h
  | noneType => exact unwrap_optional_type_core_sizeOf _ rt h
  | bool => exact unwrap_optional_type_core_sizeOf _ rt h
  | int => exact unwrap_optional_type_core_sizeOf _ rt h
  | float => exact unwrap_optional_type_core_sizeOf _ rt h
  | str => exact unwrap_optional_type_core_sizeOf _ rt h
  | bytes => exact unwrap_optional_type_core_sizeOf _ rt h
  | datetime => exact unwrap_optional_type_core_sizeOf _ rt h
  | date => exact unwrap_optional_type_core_sizeOf _ rt h
  | time => exact unwrap_optional_type_core_sizeOf _ rt h
  | uuid => exact unwrap_optional_type_core_sizeOf _ rt h
  | list _ => exact unwrap_optional_type_core_sizeOf _ rt h
  | dict _ _ => exact unwrap_optional_type_core_sizeOf _ rt h
  | set _ => exact unwrap_optional_type_core_sizeOf _ rt h
  | tuple _ => exact unwrap_optional_type_core_sizeOf _ rt h
  | enum _ _ => exact unwrap_optional_type_core_sizeOf _ rt h
  | dataclass _ _ => exact unwrap_optional_type_core_sizeOf _ rt h
  | namedtuple _ _ => exact unwrap_optional_type_core_sizeOf _ rt h

/-! ## Encoder (`object_to_json`) -/

/-- The embedding of primitive constants into the JSON value model (an
enum's underlying value is returned by the encoder as-is). -/
def primToJson : Prim → JsonValue
  | .pnull => .null
  | .pbool b => .jbool b
  | .pint n => .jint n
  | .pfloat x => .jfloat x
  | .pstr s => .jstr s

/-- The host type name of a value, as it appears in host error
messages. -/
def pyTypeName : Value → String
  | .none => "NoneType"
  | .bool _ => "bool"
  | .int _ => "int"
  | .float _ => "float"
  | .str _ => "str"
  | .bytes _ => "bytes"
  | .datetime _ => "datetime"
  | .date _ => "date"
  | .time _ => "time"
  | .uuid _ => "UUID"
  | .enum cls _ _ => cls
  | .list _ => "list"
  | .dict _ => "dict"
  | .set _ => "set"
  | .tuple _ => "tuple"
  | .record cls _ => cls
  | .ntuple cls _ => cls

def Value.isEnum : Value → Bool
  | .enum _ _ _ => true
  | _ => false

/-- `key.value` on a dictionary key: the underlying constant of an enum
member; on any other value, attribute access raises the host
`AttributeError`. -/
def valueDotValue : Value → Except JsonError Prim
  | .enum _ _ v => .ok v
  | v => .error (.attributeError
      ("\x27" ++ pyTypeName v ++ "\x27 object has no attribute \x27value\x27"))

/-- `fmt.endswith("+00:00")` / `fmt[:-6] + "Z"` post-processing of
`isoformat` output. -/
def zuluize (s : String) : String :=
  if ("+00:00".data).isSuffixOf s.data then
    String.mk (s.data.take (s.data.length - 6)) ++ "Z"
  else s

mutual

/-- `object_to_json`: converts a Python value to a representation that
can be exported to JSON.  Branches follow the source order; the `to_json`
custom hook, the exotic-type `TypeError` guard and the final
`dir()`-based attribute fallback apply only to values outside the
modelled grammar. -/
def object_to_json : Value → Except JsonError JsonValue
  | .none => .ok .null
  | .bool b => .ok (.jbool b)
  | .int n => .ok (.jint n)
  | .float x => .ok (.jfloat x)
  | .str s => .ok (.jstr s)
  | .bytes bs => .ok (.jstr (String.mk (b64encode bs)))
  | .datetime dt =>
    match dt.tzOffsetMinutes with
    | Option.none =>
      .error (.jsonValueError
        ("timestamp lacks explicit time zone designator: " ++
          dt.isoformatSep ' '))
    | some _ => .ok (.jstr (zuluize dt.isoformat))
  | .date d => .ok (.jstr d.isoformat)
  | .time t => .ok (.jstr t.isoformat)
  | .uuid n => .ok (.jstr (uuidToStr n))
  | .enum _ _ v => .ok (primToJson v)
  | .list xs =>
    match encodeItems xs with
    | .ok items => .ok (.arr items)
    | .error e => .error e
  | .dict kvs =>
    match kvs with
    | (k0, _) :: _ =>
      if k0.isEnum then
        match encodeDictEnum kvs with
        | .ok ms => .ok (.obj ms)
        | .error e => .error e
      else
        match encodeDictStr kvs with
        | .ok ms => .ok (.obj ms)
        | .error e => .error e
    | [] => .ok (.obj [])
  | .set xs =>
    match encodeItems xs with
    | .ok items => .ok (.arr items)
    | .error e => .error e
  | .record _ fields =>
    match encodeFields fields with
    | .ok ms => .ok (.obj ms)
    | .error e => .error e
  | .ntuple _ fields =>
    match encodeFields fields with
    | .ok ms => .ok (.obj ms)
    | .error e => .error e
  | .tuple xs =>
    match encodeItems xs with
    | .ok items => .ok (.arr items)
    | .error e => .error e

/-- The list comprehension `[object_to_json(item) for item in obj]`. -/
def encodeItems : List Value → Except JsonError (List JsonValue)
  | [] => .ok []
  | x :: xs =>
    match object_to_json x with
    | .error e => .error e
    | .ok j =>
      match encodeItems xs with
      | .error e => .error e
      | .ok js => .ok (j :: js)

/-- The dataclass/named-tuple field loop: a field whose value is
`None` is skipped entirely; others are emitted under the injected
serialized name, in declaration order. -/
def encodeFields : List (String × Value) → Except JsonError (List (Prim × JsonValue))
  | [] => .ok []
  | (n, v) :: fs =>
    match v with
    | .none => encodeFields fs
    | _ =>
      match object_to_json v with
      | .error e => .error e
      | .ok j =>
        match encodeFields fs with
        | .error e => .error e
        | .ok ms => .ok ((.pstr (python_id_to_json_field n Option.none), j) :: ms)

/-- The generator `((key.value, object_to_json(value)) ...)` taken when
the first key is an enum member. -/
def encodeDictEnum : List (Value × Value) → Except JsonError (List (Prim × JsonValue))
  | [] => .ok []
  | (k, v) :: kvs =>
    match valueDotValue k with
    | .error e => .error e
    | .ok p =>
      match object_to_json v with
      | .error e => .error e
      | .ok j =>
        match encodeDictEnum kvs with
        | .error e => .error e
        | .ok ms => .ok ((p, j) :: ms)

/-- The generator `((str(key), object_to_json(value)) ...)` taken when
the dictionary is empty or its first key is not an enum member. -/
def encodeDictStr : List (Value × Value) → Except JsonError (List (Prim × JsonValue))
  | [] => .ok []
  | (k, v) :: kvs =>
    match object_to_json v with
    | .error e => .error e
    | .ok j =>
      match encodeDictStr kvs with
      | .error e => .error e
      | .ok ms => .ok ((.pstr (pyStr k), j) :: ms)

end

/-! ## Decoder (`_json_to_object`) -/

/-- `_as_json_list`. -/
def as_json_list (typ : Typ) (data : JsonValue) :
    Except JsonError (List JsonValue) :=
  match data with
  | .arr items => .ok items
  | _ => .error (.jsonTypeError ("type `" ++ typeStr typ ++
      "` expects JSON `array` data but instead received: " ++ jsonStr data))

/-- `_as_json_dict` (the doubled backtick before `type` is in the
source message). -/
def as_json_dict (typ : Typ) (data : JsonValue) :
    Except JsonError (List (Prim × JsonValue)) :=
  match data with
  | .obj ms => .ok ms
  | _ => .error (.jsonTypeError ("`type `" ++ typeStr typ ++
      "` expects JSON `object` data but instead received: " ++ jsonStr data))

/-- Python `json_name in json_field_data` / `json_field_data[json_name]`:
string lookup among the keys of a JSON object. -/
def lookupKey (name : String) : List (Prim × JsonValue) → Option JsonValue
  | [] => Option.none
  | (k, v) :: ms =>
    match k with
    | .pstr s => if s = name then some v else lookupKey name ms
    | _ => lookupKey name ms

theorem as_json_list_sizeOf (typ : Typ) (data : JsonValue)
    (items : List JsonValue) (h : as_json_list typ data = .ok items) :
    sizeOf items < sizeOf data := by
  cases data with
  | arr items2 =>
    have : items = items2 := by
      injection h with h1
      exact h1.symm
    subst this
    simp only [JsonValue.arr.sizeOf_spec]
    omega
  | null => exact absurd h (by simp [as_json_list])
  | jbool _ => exact absurd h (by simp [as_json_list])
  | jint _ => exact absurd h (by simp [as_json_list])
  | jfloat _ => exact absurd h (by simp [as_json_list])
  | jstr _ => exact absurd h (by simp [as_json_list])
  | obj _ => exact absurd h (by simp [as_json_list])

theorem as_json_dict_sizeOf (typ : Typ) (data : JsonValue)
    (ms : List (Prim × JsonValue)) (h : as_json_dict typ data = .ok ms) :
    sizeOf ms < sizeOf data := by
  cases data with
  | obj ms2 =>
    have : ms = ms2 := by
      injection h with h1
      exact h1.symm
    subst this
    simp only [JsonValue.obj.sizeOf_spec]
    omega
  | null => exact absurd h (by simp [as_json_dict])
  | jbool _ => exact absurd h (by simp [as_json_dict])
  | jint _ => exact absurd h (by simp [as_json_dict])
  | jfloat _ => exact absurd h (by simp [as_json_dict])
  | jstr _ => exact absurd h (by simp [as_json_dict])
  | arr _ => exact absurd h (by simp [as_json_dict])

theorem lookupKey_sizeOf (name : String) :
    ∀ (ms : List (Prim × JsonValue)) (jv : JsonValue),
      lookupKey name ms = some jv → sizeOf jv < sizeOf ms := by
  intro ms
  induction ms with
  | nil => intro jv h; exact absurd h (by simp [lookupKey])
  | cons m ms ih =>
    intro jv h
    obtain ⟨k, v⟩ := m
    cases k with
    | pstr s =>
      simp only [lookupKey] at h
      by_cases hs : s = name
      · rw [if_pos hs] at h
        have hv : v = jv := by
          injection h
        subst hv
        simp only [List.cons.sizeOf_spec, Prod.mk.sizeOf_spec]
        omega
      · rw [if_neg hs] at h
        have := ih jv h
        simp only [List.cons.sizeOf_spec]
        omega
    | pnull =>
      simp only [lookupKey] at h
      have := ih jv h
      simp only [List.cons.sizeOf_spec]
      omega
    | pbool b =>
      simp only [lookupKey] at h
      have := ih jv h
      simp only [List.cons.sizeOf_spec]
      omega
    | pint n =>
      simp only [lookupKey] at h
      have := ih jv h
      simp only [List.cons.sizeOf_spec]
      omega
    | pfloat x =>
      simp only [lookupKey] at h
      have := ih jv h
      simp only [List.cons.sizeOf_spec]
      omega

/-- Python object-key equality between a JSON object key and a JSON
data value, as used by the enumeration value lookup. -/
def jsonPrimEqB : JsonValue → Prim → Bool
  | .null, .pnull => true
  | .jbool a, .pbool b => a == b
  | .jint a, .pint b => a == b
  | .jfloat a, .pfloat b => a == b
  | .jstr a, .pstr b => a == b
  | _, _ => false

/-- `typ(data)` for an enumeration type: lookup by underlying value; an
unmatched value raises the host `ValueError`. -/
def enumFromJson (cls : String) (members : List (String × Prim))
    (data : JsonValue) : Except JsonError Value :=
  match members.find? (fun m => jsonPrimEqB data m.2) with
  | some (name, v) => .ok (.enum cls name v)
  | Option.none =>
    .error (.valueError (jsonRepr data ++ " is not a valid " ++ cls))

/-- `key_type(key)`: direct construction of a dictionary key of the
declared key type from a JSON object key (keys are not recursively
JSON-decoded).  Constructor-call semantics are modelled for the hashable
key types that arise in practice (`str`, `int`, `bool`, `float` and
enumerations); remaining key types fail with a host `TypeError` standing
for the respective constructor failure, and `int()`/truthiness of an
uninterpreted double literal is approximated as documented. -/
def keyConstruct (keyType : Typ) (k : Prim) : Except JsonError Value :=
  match keyType with
  | .str => .ok (.str (primStr k))
  | .int =>
    match k with
    | .pint n => .ok (.int n)
    | .pbool b => .ok (.int (if b then 1 else 0))
    | .pstr s =>
      match strToInt s.data with
      | some n => .ok (.int n)
      | Option.none => .error (.valueError
          ("invalid literal for int() with base 10: \x27" ++ s ++ "\x27"))
    | .pfloat (.ofInt n) => .ok (.int n)
    | .pfloat (.lit t) =>
      match strToInt (t.data.takeWhile (fun c => c ≠ '.')) with
      | some n => .ok (.int n)
      | Option.none => .error (.typeError
          "int() of an uninterpreted double literal is not modelled")
    | .pnull => .error (.typeError
        "int() argument must be a string, a bytes-like object or a real number, not \x27NoneType\x27")
  | .bool =>
    .ok (.bool (match k with
      | .pnull => false
      | .pbool b => b
      | .pint n => n != 0
      | .pfloat (.ofInt n) => n != 0
      | .pfloat (.lit _) => true
      | .pstr s => s != ""))
  | .float =>
    match k with
    | .pfloat x => .ok (.float x)
    | .pint n => .ok (.float (.ofInt n))
    | .pbool b => .ok (.float (.ofInt (if b then 1 else 0)))
    | _ => .error (.typeError
        "float() construction from this key is not modelled")
  | .enum cls members =>
    match members.find? (fun m => m.2 == k) with
    | some (name, v) => .ok (.enum cls name v)
    | Option.none =>
      .error (.valueError (primRepr k ++ " is not a valid " ++ cls))
  | t => .error (.typeError
      ("key construction not modelled for type `" ++ typeStr t ++ "`"))

/-- The `data.endswith("Z")` / `data[:-1] + "+00:00"` rebinding applied
before `fromisoformat`. -/
def stripTrailZ (s : String) : String :=
  match s.data.getLast? with
  | some c => if c = 'Z' then String.mk (s.data.dropLast ++ "+00:00".data) else s
  | Option.none => s

/-- Membership of a JSON object key in the set of assigned serialized
field names (a non-string key is never a member). -/
def primInNames (names : List String) (k : Prim) : Bool :=
  match k with
  | .pstr s => names.contains s
  | _ => false

def primsRepr : List Prim → String
  | [] => ""
  | [k] => primRepr k
  | k :: k2 :: ks => primRepr k ++ ", " ++ primsRepr (k2 :: ks)


theorem lookupKey_option_sizeOf (name : String)
    (ms : List (Prim × JsonValue)) :
    sizeOf (lookupKey name ms) ≤ sizeOf ms := by
  cases h : lookupKey name ms with
  | none =>
    have h1 : 1 ≤ sizeOf ms := by
      cases ms with
      | nil => simp
      | cons m ms => simp only [List.cons.sizeOf_spec]; omega
    simpa using h1
  | some jv =>
    have h2 := lookupKey_sizeOf name ms jv h
    simp only [Option.some.sizeOf_spec]
    omega

mutual

/-- `_json_to_object`: creates a Python value from a JSON representation.
Branches follow the source order.  Recursive `json_to_object(t, item)`
calls are modelled as recursion into this function (see the module
docstring).  The `from_json` custom hook and the final plain-class
reflection path apply only to types outside the modelled grammar. -/
def json_to_object (typ : Typ) (data : JsonValue) : Except JsonError Value :=
  match typ with
  | .noneType =>
    match data with
    | .null => .ok .none
    | _ => .error (.jsonTypeError
        ("`None` type expects JSON `null` but instead received: " ++
          jsonStr data))
  | .bool =>
    match data with
    | .jbool b => .ok (.bool b)
    | _ => .error (.jsonTypeError
        ("`bool` type expects JSON `boolean` data but instead received: " ++
          jsonStr data))
  | .int =>
    match data with
    | .jint n => .ok (.int n)
    | .jbool b => .ok (.int (if b then 1 else 0))
    | _ => .error (.jsonTypeError
        ("`int` type expects integer data as JSON `number` but instead received: "
          ++ jsonStr data))
  | .float =>
    match data with
    | .jfloat x => .ok (.float x)
    | .jint n => .ok (.float (.ofInt n))
    | .jbool b => .ok (.float (.ofInt (if b then 1 else 0)))
    | _ => .error (.jsonTypeError
        ("`int` type expects data as JSON `number` but instead received: " ++
          jsonStr data))
  | .str =>
    match data with
    | .jstr s => .ok (.str s)
    | _ => .error (.jsonTypeError
        ("`str` type expects JSON `string` data but instead received: " ++
          jsonStr data))
  | .bytes =>
    match data with
    | .jstr s =>
      match b64decode s with
      | .ok bs => .ok (.bytes bs)
      | .error e => .error e
    | _ => .error (.jsonTypeError
        ("`bytes` type expects JSON `string` data but instead received: " ++
          jsonStr data))
  | .datetime =>
    match data with
    | .jstr s =>
      match fromisoformatDateTime (stripTrailZ s) with
      | .error e => .error e
      | .ok ts =>
        match ts.tzOffsetMinutes with
        | Option.none => .error (.jsonValueError
            ("timestamp lacks explicit time zone designator: " ++
              stripTrailZ s))
        | some _ => .ok (.datetime ts)
    | _ => .error (.jsonTypeError
        ("`datetime` type expects JSON `string` data but instead received: " ++
          jsonStr data))
  | .date =>
    match data with
    | .jstr s =>
      match fromisoformatDate s with
      | .ok d => .ok (.date d)
      | .error e => .error e
    | _ => .error (.jsonTypeError
        ("`date` type expects JSON `string` data but instead received: " ++
          jsonStr data))
  | .time =>
    match data with
    | .jstr s =>
      match fromisoformatTime s with
      | .ok t => .ok (.time t)
      | .error e => .error e
    | _ => .error (.jsonTypeError
        ("`time` type expects JSON `string` data but instead received: " ++
          jsonStr data))
  | .uuid =>
    match data with
    | .jstr s =>
      match uuidFromStr s with
      | .ok n => .ok (.uuid n)
      | .error e => .error e
    | _ => .error (.jsonTypeError
        ("`UUID` type expects JSON `string` data but instead received: " ++
          jsonStr data))
  | .list t =>
    match h : as_json_list (.list t) data with
    | .error e => .error e
    | .ok items =>
      match decodeItems t items with
      | .error e => .error e
      | .ok vs => .ok (.list vs)
  | .dict kT vT =>
    match h : as_json_dict (.dict kT vT) data with
    | .error e => .error e
    | .ok ms =>
      match decodeDictItems kT vT ms with
      | .error e => .error e
      | .ok kvs => .ok (.dict (pyDictOfList kvs))
  | .set t =>
    match h : as_json_list (.set t) data with
    | .error e => .error e
    | .ok items =>
      match decodeItems t items with
      | .error e => .error e
      | .ok vs => .ok (.set (pySetOfList vs))
  | .tuple ts =>
    match h : as_json_list (.tuple ts) data with
    | .error e => .error e
    | .ok items =>
      match decodeZip ts items with
      | .error e => .error e
      | .ok vs => .ok (.tuple vs)
  | .union ts =>
    decodeUnion ("type `" ++ typeStr (.union ts) ++
      "` could not be instantiated from: " ++ jsonStr data) ts data
  | .annotated inner meta =>
    .error (.typeError ("unable to de-serialize unrecognized type " ++
      typeStr (.annotated inner meta)))
  | .namedtuple cls fields =>
    match h : as_json_dict (.namedtuple cls fields) data with
    | .error e => .error e
    | .ok ms =>
      match decodeNTFields fields ms with
      | .error e => .error e
      | .ok fvs => .ok (.ntuple cls fvs)
  | .enum cls members => enumFromJson cls members data
  | .dataclass cls fields =>
    match h : as_json_dict (.dataclass cls fields) data with
    | .error e => .error e
    | .ok ms =>
      match decodeDCFields fields ms (jsonStr data) with
      | .error e => .error e
      | .ok fvs =>
        match ms.filter (fun m =>
            ! primInNames
              (fields.map (fun f =>
                python_id_to_json_field f.fname (some f.ftype))) m.1) with
        | [] => .ok (.record cls fvs)
        | u :: us => .error (.jsonKeyError
            ("unrecognized fields in JSON object: [" ++
              primsRepr ((u :: us).map (fun m => m.1)) ++ "]"))
termination_by sizeOf typ + sizeOf data
decreasing_by
  all_goals simp_wf
  all_goals try omega
  · have := as_json_list_sizeOf (.list t) data items h
    omega
  · have := as_json_dict_sizeOf (.dict kT vT) data ms h
    omega
  · have := as_json_list_sizeOf (.set t) data items h
    omega
  · have := as_json_list_sizeOf (.tuple ts) data items h
    omega
  · have := as_json_dict_sizeOf (.namedtuple cls fields) data ms h
    omega
  · have := as_json_dict_sizeOf (.dataclass cls fields) data ms h
    omega

/-- The comprehension `[json_to_object(list_type, item) for item in ...]`
shared by the `list` and `set` branches. -/
def decodeItems (t : Typ) : List JsonValue → Except JsonError (List Value)
  | [] => .ok []
  | x :: xs =>
    match json_to_object t x with
    | .error e => .error e
    | .ok v =>
      match decodeItems t xs with
      | .error e => .error e
      | .ok vs => .ok (v :: vs)
termination_by xs => sizeOf t + sizeOf xs
decreasing_by
  all_goals simp_wf
  all_goals omega

/-- The `zip` comprehension of the tuple branch: pairs member types with
array elements positionally, truncating to the shorter operand. -/
def decodeZip : List Typ → List JsonValue → Except JsonError (List Value)
  | [], _ => .ok []
  | _ :: _, [] => .ok []
  | t :: ts, x :: xs =>
    match json_to_object t x with
    | .error e => .error e
    | .ok v =>
      match decodeZip ts xs with
      | .error e => .error e
      | .ok vs => .ok (v :: vs)
termination_by ts xs => sizeOf ts + sizeOf xs
decreasing_by
  all_goals simp_wf
  all_goals omega

/-- The dict-branch comprehension
`dict((key_type(key), json_to_object(value_type, value)) ...)`. -/
def decodeDictItems (kT vT : Typ) :
    List (Prim × JsonValue) → Except JsonError (List (Value × Value))
  | [] => .ok []
  | (k, v) :: ms =>
    match keyConstruct kT k with
    | .error e => .error e
    | .ok kv =>
      match json_to_object vT v with
      | .error e => .error e
      | .ok vv =>
        match decodeDictItems kT vT ms with
        | .error e => .error e
        | .ok rest => .ok ((kv, vv) :: rest)
termination_by ms => sizeOf kT + sizeOf vT + sizeOf ms
decreasing_by
  all_goals simp_wf
  all_goals omega

/-- The union-resolution loop: members are tried in declared order; a
`JsonKeyError` or `JsonTypeError` moves to the next member, any other
exception propagates; exhaustion raises the `JsonKeyError` whose message
names the union type and the original data. -/
def decodeUnion (errMsg : String) :
    List Typ → JsonValue → Except JsonError Value
  | [], _ => .error (.jsonKeyError errMsg)
  | t :: ts, d =>
    match json_to_object t d with
    | .ok v => .ok v
    | .error e =>
      match e with
      | .jsonKeyError _ => decodeUnion errMsg ts d
      | .jsonTypeError _ => decodeUnion errMsg ts d
      | _ => .error e
termination_by ts d => sizeOf ts + sizeOf d
decreasing_by
  all_goals simp_wf
  all_goals omega

/-- The named-tuple field comprehension: each declared field is looked up
by its raw name (a missing field raises the host `KeyError`) and decoded
against the declared field type. -/
def decodeNTFields :
    List (String × Typ) → List (Prim × JsonValue) →
      Except JsonError (List (String × Value))
  | [], _ => .ok []
  | (n, t) :: fs, ms =>
    match h : lookupKey n ms with
    | Option.none => .error (.pyKeyError ("\x27" ++ n ++ "\x27"))
    | some jv =>
      match json_to_object t jv with
      | .error e => .error e
      | .ok v =>
        match decodeNTFields fs ms with
        | .error e => .error e
        | .ok vs => .ok ((n, v) :: vs)
termination_by fs ms => sizeOf fs + sizeOf ms
decreasing_by
  all_goals simp_wf
  all_goals try omega
  · have := lookupKey_sizeOf n ms jv h
    omega

/-- The per-field rule of the dataclass branch (`serialization.py`,
lines 326–345), applied to the result of probing the JSON object for
the field's serialized name: a present key is decoded against the required-unwrapped
field type; an absent key falls back, in order, to the declared default,
the default factory, the none value for an `Optional` field, and
otherwise the "missing required property" `JsonKeyError`. -/
def dataclassFieldValue (fname : String) (ftype : Typ)
    (dflt dfltFactory : Option Value) (found : Option JsonValue)
    (dataRepr : String) : Except JsonError Value :=
  match found with
  | some jv =>
    if is_type_optional ftype false then
      match h2 : unwrap_optional_type ftype with
      | .ok rt => json_to_object rt jv
      | .error e => .error e
    else json_to_object ftype jv
  | Option.none =>
    match dflt with
    | some d => .ok d
    | Option.none =>
      match dfltFactory with
      | some fv => .ok fv
      | Option.none =>
        if is_type_optional ftype false then .ok .none
        else .error (.jsonKeyError
            ("missing required property `" ++
              python_id_to_json_field fname (some ftype) ++
              "` from JSON object: " ++ dataRepr))
termination_by sizeOf ftype + sizeOf found
decreasing_by
  all_goals simp_wf
  all_goals try omega
  · have h4 := unwrap_optional_type_sizeOf ftype rt h2
    omega

/-- The dataclass field loop (fields are processed in declaration order;
the first failing field aborts the decode). -/
def decodeDCFields (fields : List FieldDecl) (ms : List (Prim × JsonValue))
    (dataRepr : String) : Except JsonError (List (String × Value)) :=
  match fields with
  | [] => .ok []
  | .mk n t d fac :: fs =>
    match dataclassFieldValue n t d fac
        (lookupKey (python_id_to_json_field n (some t)) ms) dataRepr with
    | .error e => .error e
    | .ok v =>
      match decodeDCFields fs ms dataRepr with
      | .error e => .error e
      | .ok vs => .ok ((n, v) :: vs)
termination_by sizeOf fields + sizeOf ms
decreasing_by
  all_goals simp_wf
  all_goals try omega
  all_goals
    have h5 := lookupKey_option_sizeOf (python_id_to_json_field n (some t)) ms
  all_goals omega

end

/-! ## Claim theorems -/

/-- The exceptions caught by the union-resolution
`except (JsonKeyError, JsonTypeError)` clause. -/
def retryable : JsonError → Bool
  | .jsonKeyError _ => true
  | .jsonTypeError _ => true
  | _ => false

theorem json_to_object_union (ts : List Typ) (d : JsonValue) :
    json_to_object (.union ts) d =
      decodeUnion ("type `" ++ typeStr (.union ts) ++
        "` could not be instantiated from: " ++ jsonStr d) ts d := by
  rw [json_to_object]

theorem decodeUnion_cons_retry (msg : String) (t : Typ) (ts : List Typ)
    (d : JsonValue) (e : JsonError) (he : json_to_object t d = .error e)
    (hr : retryable e = true) :
    decodeUnion msg (t :: ts) d = decodeUnion msg ts d := by
  rw [decodeUnion, he]
  cases e with
  | jsonKeyError m => rfl
  | jsonTypeError m => rfl
  | jsonValueError m => exact absurd hr (by simp [retryable])
  | typeError m => exact absurd hr (by simp [retryable])
  | valueError m => exact absurd hr (by simp [retryable])
  | pyKeyError m => exact absurd hr (by simp [retryable])
  | attributeError m => exact absurd hr (by simp [retryable])

theorem decodeUnion_skip (msg : String) (pre rest : List Typ) (d : JsonValue)
    (hpre : ∀ t2 ∈ pre, ∃ e, json_to_object t2 d = .error e ∧
      retryable e = true) :
    decodeUnion msg (pre ++ rest) d = decodeUnion msg rest d := by
  induction pre with
  | nil => rfl
  | cons p ps ih =>
    obtain ⟨e, he, hr⟩ := hpre p (by simp)
    rw [List.cons_append, decodeUnion_cons_retry msg p (ps ++ rest) d e he hr]
    exact ih (fun t2 ht2 => hpre t2 (by simp [ht2]))

theorem decodeUnion_all_fail (msg : String) (ts : List Typ) (d : JsonValue)
    (hall : ∀ t2 ∈ ts, ∃ e, json_to_object t2 d = .error e ∧
      retryable e = true) :
    decodeUnion msg ts d = .error (.jsonKeyError msg) := by
  induction ts with
  | nil => rw [decodeUnion.eq_def]
  | cons t ts ih =>
    obtain ⟨e, he, hr⟩ := hall t (by simp)
    rw [decodeUnion_cons_retry msg t ts d e he hr]
    exact ih (fun t2 ht2 => hall t2 (by simp [ht2]))

/-- **C1.** Union decoding tries the members in declared order: with
every member before `t` failing on a key-class or type-class error,
(i) if `t` decodes successfully its value is the union's result;
(ii) if `t` raises an error that the resolution loop does not catch —
in particular a value error — that error propagates unchanged; and
(iii) if every member fails with a key- or type-class error, decoding
raises the `JsonKeyError` naming the union type and the original
data. -/
theorem c1_union_first_match (ts pre post : List Typ) (t : Typ)
    (d : JsonValue) (hts : ts = pre ++ t :: post)
    (hpre : ∀ t2 ∈ pre, ∃ e, json_to_object t2 d = .error e ∧
      retryable e = true) :
    (∀ v, json_to_object t d = .ok v →
      json_to_object (.union ts) d = .ok v)
    ∧ (∀ e, json_to_object t d = .error e → retryable e = false →
        json_to_object (.union ts) d = .error e)
    ∧ ((∀ t2 ∈ ts, ∃ e, json_to_object t2 d = .error e ∧
          retryable e = true) →
        json_to_object (.union ts) d = .error (.jsonKeyError
          ("type `" ++ typeStr (.union ts) ++
            "` could not be instantiated from: " ++ jsonStr d))) := by
  subst hts
  refine ⟨?_, ?_, ?_⟩
  · intro v hv
    rw [json_to_object_union, decodeUnion_skip _ pre (t :: post) d hpre,
      decodeUnion, hv]
  · intro e he hr
    rw [json_to_object_union, decodeUnion_skip _ pre (t :: post) d hpre,
      decodeUnion, he]
    cases e with
    | jsonKeyError m => exact absurd hr (by simp [retryable])
    | jsonTypeError m => exact absurd hr (by simp [retryable])
    | jsonValueError m => rfl
    | typeError m => rfl
    | valueError m => rfl
    | pyKeyError m => rfl
    | attributeError m => rfl
  · intro hall
    rw [json_to_object_union, decodeUnion_all_fail _ _ d hall]

/-- Witness for C1 at `Union[int, str]` on the string `"x"`: the `int`
member fails with a type error, so the `str` member (first success in
declared order) wins. -/
theorem c1_union_first_match_witness :
    json_to_object (.union [.int, .str]) (.jstr "x") = .ok (.str "x") := by
  have h := c1_union_first_match [.int, .str] [.int] [] .str (.jstr "x") rfl
    (by
      intro t2 ht2
      have ht : t2 = .int := by simpa using ht2
      subst ht
      refine ⟨.jsonTypeError
        ("`int` type expects integer data as JSON `number` but instead received: "
          ++ jsonStr (.jstr "x")), ?_, rfl⟩
      simp [json_to_object])
  exact h.1 (.str "x") (by simp [json_to_object])

theorem json_to_object_tuple_arr (ts : List Typ) (xs : List JsonValue) :
    json_to_object (.tuple ts) (.arr xs) =
      match decodeZip ts xs with
      | .error e => .error e
      | .ok vs => .ok (.tuple vs) := by
  rw [json_to_object]
  rfl

theorem decodeZip_truncate (ts : List Typ) (xs : List JsonValue) :
    decodeZip ts (xs.take ts.length) = decodeZip ts xs := by
  induction ts generalizing xs with
  | nil => rw [decodeZip.eq_def, decodeZip.eq_def]
  | cons t ts ih =>
    cases xs with
    | nil => rfl
    | cons x xs =>
      rw [List.length_cons, List.take_succ_cons, decodeZip, decodeZip, ih]

theorem decodeZip_ok (ts : List Typ) (xs : List JsonValue)
    (h : ∀ p ∈ List.zip ts xs, ∃ v, json_to_object p.1 p.2 = .ok v) :
    ∃ vs, decodeZip ts xs = .ok vs
      ∧ vs.length = min ts.length xs.length
      ∧ List.Forall₂ (fun p v => json_to_object p.1 p.2 = .ok v)
          (List.zip ts xs) vs := by
  induction ts generalizing xs with
  | nil =>
    refine ⟨[], by rw [decodeZip.eq_def], by simp, by simp⟩
  | cons t ts ih =>
    cases xs with
    | nil => exact ⟨[], by rw [decodeZip.eq_def], by simp, by simp⟩
    | cons x xs =>
      obtain ⟨v, hv⟩ := h (t, x) (by simp)
      obtain ⟨vs, hvs, hlen, hf⟩ := ih xs
        (fun p hp => h p (by simp [hp]))
      refine ⟨v :: vs, ?_, ?_, ?_⟩
      · rw [decodeZip, hv, hvs]
      · simp only [List.length_cons, hlen]
        omega
      · exact List.Forall₂.cons hv hf

/-- **C5.** A fixed tuple type is decoded by pairing member types with
array elements positionally, truncating to the shorter side: decoding
an array equals decoding its prefix of the declared length (extra
elements are silently ignored, never an error), and when every paired
element decodes, the result is the tuple of the paired decodes, of
length the minimum of the two lengths. -/
theorem c5_tuple_extra_elements (ts : List Typ) (xs : List JsonValue)
    (h : ∀ p ∈ List.zip ts xs, ∃ v, json_to_object p.1 p.2 = .ok v) :
    json_to_object (.tuple ts) (.arr xs) =
      json_to_object (.tuple ts) (.arr (xs.take ts.length))
    ∧ ∃ vs, json_to_object (.tuple ts) (.arr xs) = .ok (.tuple vs)
        ∧ vs.length = min ts.length xs.length
        ∧ List.Forall₂ (fun p v => json_to_object p.1 p.2 = .ok v)
            (List.zip ts xs) vs := by
  obtain ⟨vs, hvs, hlen, hf⟩ := decodeZip_ok ts xs h
  refine ⟨?_, vs, ?_, hlen, hf⟩
  · rw [json_to_object_tuple_arr, json_to_object_tuple_arr, decodeZip_truncate]
  · rw [json_to_object_tuple_arr, hvs]

/-- Witness for C5: a three-element array against `Tuple[int, str]`
decodes as its two-element prefix would, yielding a pair. -/
theorem c5_tuple_extra_elements_witness :
    json_to_object (.tuple [.int, .str])
        (.arr [.jint 1, .jstr "a", .jint 9]) =
      json_to_object (.tuple [.int, .str]) (.arr [.jint 1, .jstr "a"])
    ∧ json_to_object (.tuple [.int, .str])
        (.arr [.jint 1, .jstr "a", .jint 9]) = .ok (.tuple [.int 1, .str "a"]) := by
  have h := c5_tuple_extra_elements [.int, .str] [.jint 1, .jstr "a", .jint 9]
    (by
      intro p hp
      have hp2 : p = (Typ.int, JsonValue.jint 1)
          ∨ p = (Typ.str, JsonValue.jstr "a") := by simpa using hp
      rcases hp2 with h2 | h2 <;> subst h2
      · exact ⟨.int 1, by simp [json_to_object]⟩
      · exact ⟨.str "a", by simp [json_to_object]⟩)
  refine ⟨by simpa using h.1, ?_⟩
  simp [json_to_object_tuple_arr, decodeZip, json_to_object]

theorem isNoneType_iff (t : Typ) : t.isNoneType = true ↔ t = .noneType := by
  cases t <;> simp [Typ.isNoneType]

/-- **C9.** The optional-ness query holds exactly when the union lists
the none type among its members, with no arity bound (three-member
unions included); its strict variant holds only for two-member unions;
and unwrapping removes the none members, yielding the single remaining
member, or the reduced union when several remain. -/
theorem c9_optional_queries (ts : List Typ) :
    (is_type_optional (.union ts) false = true ↔ Typ.noneType ∈ ts)
    ∧ (is_type_optional (.union ts) true = true →
        ts.length = 2 ∧ Typ.noneType ∈ ts)
    ∧ (∀ t, ts.filter (fun t2 => ! t2.isNoneType) = [t] →
        unwrap_optional_type (.union ts) = .ok t)
    ∧ (∀ t u rest, ts.filter (fun t2 => ! t2.isNoneType) = t :: u :: rest →
        unwrap_optional_type (.union ts) = .ok (.union (t :: u :: rest))) := by
  refine ⟨?_, ?_, ?_, ?_⟩
  · simp [is_type_optional, unwrap_annotated_type, List.any_eq_true,
      isNoneType_iff]
  · intro h
    by_cases hl : ts.length = 2
    · refine ⟨hl, ?_⟩
      have h2 : ts.any Typ.isNoneType = true := by
        simpa [is_type_optional, unwrap_annotated_type, hl] using h
      rw [List.any_eq_true] at h2
      obtain ⟨x, hx, hxn⟩ := h2
      exact (isNoneType_iff x).mp hxn ▸ hx
    · exact absurd h (by simp [is_type_optional, unwrap_annotated_type, hl])
  · intro t hf
    show unwrap_optional_type_core (.union ts) = .ok t
    rw [unwrap_core_union_eq, hf]
  · intro t u rest hf
    show unwrap_optional_type_core (.union ts) = .ok (.union (t :: u :: rest))
    rw [unwrap_core_union_eq, hf]

/-- Witness for C9 at the three-member union `Union[int, str, None]`:
optional-ness holds, its strict variant does not, and unwrapping yields
`Union[int, str]`. -/
theorem c9_optional_queries_witness :
    is_type_optional (.union [.int, .str, .noneType]) false = true
    ∧ (¬ (is_type_optional (.union [.int, .str, .noneType]) true = true))
    ∧ unwrap_optional_type (.union [.int, .str, .noneType]) =
        .ok (.union [.int, .str]) := by
  have h := c9_optional_queries [.int, .str, .noneType]
  refine ⟨h.1.mpr (by simp), ?_, ?_⟩
  · intro hc
    have := (h.2.1 hc).1
    simp at this
  · exact h.2.2.2 .int .str [] (by simp [Typ.isNoneType])

theorem dataclassFieldValue_absent (fname : String) (ftype : Typ)
    (d fac : Option Value) (r : String) :
    dataclassFieldValue fname ftype d fac Option.none r =
      match d with
      | some dv => .ok dv
      | Option.none =>
        match fac with
        | some fv => .ok fv
        | Option.none =>
          if is_type_optional ftype false then .ok .none
          else .error (.jsonKeyError
              ("missing required property `" ++
                python_id_to_json_field fname (some ftype) ++
                "` from JSON object: " ++ r)) := by
  rw [dataclassFieldValue.eq_def]

theorem dataclassFieldValue_present_req (fname : String) (ftype : Typ)
    (d fac : Option Value) (jv : JsonValue) (r : String)
    (hopt : is_type_optional ftype false = false) :
    dataclassFieldValue fname ftype d fac (some jv) r =
      json_to_object ftype jv := by
  rw [dataclassFieldValue.eq_def]
  simp only [hopt, Bool.false_eq_true, if_false]

theorem dataclassFieldValue_present_opt (fname : String) (ftype rt : Typ)
    (d fac : Option Value) (jv : JsonValue) (r : String)
    (hopt : is_type_optional ftype false = true)
    (hun : unwrap_optional_type ftype = .ok rt) :
    dataclassFieldValue fname ftype d fac (some jv) r =
      json_to_object rt jv := by
  rw [dataclassFieldValue.eq_def]
  simp only [hopt, if_true]
  split
  · rename_i rt2 h2
    rw [hun] at h2
    injection h2 with h
    subst h
    rfl
  · rename_i e h2
    rw [hun] at h2
    exact absurd h2 (by simp)

/-- **C4.** For a record field whose serialized name is absent from the
JSON object, decoding applies, in order: the declared default value,
then the default factory, then — when the field type is `Optional` —
the absent value; otherwise it raises the `JsonKeyError` naming the
missing property; in particular decoding the empty object against a
record with one non-optional, defaultless field raises that key
error. -/
theorem c4_missing_field_defaults (fname : String) (ftype : Typ)
    (d fac : Option Value) (ms : List (Prim × JsonValue)) (r cls : String)
    (habsent : lookupKey (python_id_to_json_field fname (some ftype)) ms =
      Option.none) :
    dataclassFieldValue fname ftype d fac
        (lookupKey (python_id_to_json_field fname (some ftype)) ms) r =
      (match d with
       | some dv => .ok dv
       | Option.none =>
         match fac with
         | some fv => .ok fv
         | Option.none =>
           if is_type_optional ftype false then .ok .none
           else .error (.jsonKeyError
               ("missing required property `" ++
                 python_id_to_json_field fname (some ftype) ++
                 "` from JSON object: " ++ r)))
    ∧ (d = Option.none → fac = Option.none →
        is_type_optional ftype false = false →
        json_to_object (.dataclass cls [.mk fname ftype d fac]) (.obj []) =
          .error (.jsonKeyError
            ("missing required property `" ++
              python_id_to_json_field fname (some ftype) ++
              "` from JSON object: " ++ jsonStr (.obj [])))) := by
  constructor
  · rw [habsent]
    exact dataclassFieldValue_absent fname ftype d fac r
  · intro h1 h2 h3
    subst h1
    subst h2
    rw [json_to_object]
    simp [as_json_dict, decodeDCFields, lookupKey,
      dataclassFieldValue_absent, h3]

/-- Witness for C4: the empty JSON object against a record whose single
field `a : int` has no default raises the missing-property key error. -/
theorem c4_missing_field_defaults_witness :
    json_to_object (.dataclass "R" [.mk "a" .int Option.none Option.none])
        (.obj []) =
      .error (.jsonKeyError
        ("missing required property `a` from JSON object: " ++
          jsonStr (.obj []))) := by
  have h := c4_missing_field_defaults "a" .int Option.none Option.none [] ""
    "R" (by simp [lookupKey])
  have h2 := h.2 rfl rfl (by simp [is_type_optional, unwrap_annotated_type])
  simpa [python_id_to_json_field] using h2

/-- `obj is None` on values. -/
def Value.isNone : Value → Bool
  | .none => true
  | _ => false

theorem encodeFields_cons (n : String) (v : Value)
    (fs : List (String × Value)) :
    encodeFields ((n, v) :: fs) =
      if v.isNone then encodeFields fs
      else
        match object_to_json v with
        | .error e => .error e
        | .ok j =>
          match encodeFields fs with
          | .error e => .error e
          | .ok ms =>
            .ok ((.pstr (python_id_to_json_field n Option.none), j) :: ms) := by
  cases v <;> simp [encodeFields, Value.isNone]

theorem encodeFields_keys (fs : List (String × Value))
    (ms : List (Prim × JsonValue)) (h : encodeFields fs = .ok ms) :
    ms.map Prod.fst =
      (fs.filter (fun f => ! f.2.isNone)).map
        (fun f => Prim.pstr (python_id_to_json_field f.1 Option.none)) := by
  induction fs generalizing ms with
  | nil =>
    rw [encodeFields] at h
    injection h with h1
    subst h1
    rfl
  | cons f fs ih =>
    obtain ⟨n, v⟩ := f
    rw [encodeFields_cons] at h
    cases hv : v.isNone with
    | true =>
      rw [hv, if_pos rfl] at h
      simp only [List.filter_cons, hv, Bool.not_true, if_neg]
      simpa using ih ms h
    | false =>
      rw [hv, if_neg (by simp)] at h
      cases hoj : object_to_json v with
      | error e => rw [hoj] at h; exact absurd h (by simp)
      | ok j =>
        rw [hoj] at h
        cases hrec : encodeFields fs with
        | error e => rw [hrec] at h; exact absurd h (by simp)
        | ok ms2 =>
          rw [hrec] at h
          injection h with h1
          subst h1
          simp only [List.filter_cons, hv, Bool.not_false, if_pos,
            List.map_cons]
          rw [ih ms2 hrec]

/-- **C7.** Encoding a record produces a JSON object whose keys are
exactly the serialized names of the fields holding a non-`None`
value, in declaration order: every `None`-valued field is omitted
entirely — its key does not occur in the output, so no explicit JSON
`null` is ever emitted for it. -/
theorem c7_encode_omits_none_fields (cls : String)
    (fields : List (String × Value)) (j : JsonValue)
    (hnd : (fields.map Prod.fst).Nodup)
    (hok : object_to_json (.record cls fields) = .ok j) :
    ∃ ms, j = .obj ms
      ∧ ms.map Prod.fst =
          (fields.filter (fun f => ! f.2.isNone)).map
            (fun f => Prim.pstr (python_id_to_json_field f.1 Option.none))
      ∧ ∀ fv ∈ fields, fv.2 = .none →
          (Prim.pstr (python_id_to_json_field fv.1 Option.none)) ∉
            ms.map Prod.fst := by
  rw [object_to_json] at hok
  cases hef : encodeFields fields with
  | error e => rw [hef] at hok; exact absurd hok (by simp)
  | ok ms =>
    rw [hef] at hok
    injection hok with h1
    refine ⟨ms, h1.symm, encodeFields_keys fields ms hef, ?_⟩
    intro fv hfv hnone
    rw [encodeFields_keys fields ms hef]
    intro hmem
    rw [List.mem_map] at hmem
    obtain ⟨g, hg, heq⟩ := hmem
    have hgname : g.1 = fv.1 := by
      simpa [python_id_to_json_field] using heq
    have hgmem : g ∈ fields := List.mem_of_mem_filter hg
    have hgnone : g.2.isNone = false := by
      have := List.of_mem_filter hg
      simpa using this
    have hne : g ≠ fv := by
      intro hcon
      subst hcon
      rw [hnone] at hgnone
      exact absurd hgnone (by simp [Value.isNone])
    have hpw : fields.Pairwise (fun a b => a.1 ≠ b.1) :=
      List.pairwise_map.mp hnd
    exact (List.Pairwise.forall (fun _ _ h => h.symm) hpw hgmem hfv hne)
      hgname

/-- Witness for C7: a record with a `None`-valued field `x` and an
integer field `y` encodes to an object holding only `y`; the key `x`
is absent. -/
theorem c7_encode_omits_none_fields_witness :
    object_to_json (.record "A" [("x", .none), ("y", .int 2)]) =
      .ok (.obj [(.pstr "y", .jint 2)])
    ∧ (Prim.pstr "x") ∉
        ([((Prim.pstr "y", JsonValue.jint 2))].map Prod.fst) := by
  have henc : object_to_json (.record "A" [("x", .none), ("y", .int 2)]) =
      .ok (.obj [(.pstr "y", .jint 2)]) := by
    simp [object_to_json, encodeFields, python_id_to_json_field]
  have h := c7_encode_omits_none_fields "A" [("x", .none), ("y", .int 2)]
    (.obj [(.pstr "y", .jint 2)]) (by simp) henc
  obtain ⟨ms, hms, hkeys, hnotin⟩ := h
  have hms2 : [((Prim.pstr "y", JsonValue.jint 2))] = ms := by
    injection hms
  refine ⟨henc, ?_⟩
  have hx := hnotin ("x", .none) (by simp) rfl
  rw [← hms2] at hx
  exact hx

theorem offsetToStr_zero : offsetToStr 0 = "+00:00" := rfl

theorem zuluize_suffix (s : String) (base : List Char)
    (hs : s.data = base ++ "+00:00".data) :
    (zuluize s).data = base ++ ['Z'] := by
  unfold zuluize
  rw [hs]
  rw [if_pos (by rw [List.isSuffixOf_iff_suffix]; exact List.suffix_append _ _)]
  rw [String.data_append, data_mk]
  have hlen : (base ++ "+00:00".data).length - 6 = base.length := by
    simp
  rw [hlen]
  rw [List.take_left]

theorem not_suffix_plus_of_last_Z (base : List Char) :
    ¬ ("+00:00".data <:+ base ++ ['Z']) := by
  rintro ⟨t, ht⟩
  have ht2 := congrArg List.getLast? ht
  rw [List.getLast?_concat] at ht2
  have hsplit : t ++ "+00:00".data = (t ++ ['+', '0', '0', ':', '0']) ++ ['0'] := by
    show t ++ (['+', '0', '0', ':', '0'] ++ ['0']) = _
    rw [List.append_assoc]
  rw [hsplit, List.getLast?_concat] at ht2
  exact absurd ht2 (by simp)

theorem zuluize_nonzero (s : String) (h : ¬ ("+00:00".data <:+ s.data)) :
    zuluize s = s := by
  unfold zuluize
  rw [if_neg (by rw [List.isSuffixOf_iff_suffix]; exact h)]

/-- **C6.** Encoding a timezone-naive datetime raises the value-error
kind; encoding an offset-zero (UTC) datetime produces a string ending
in `Z` and not in `+00:00`; decoding a string whose parse yields a
naive timestamp raises the value-error kind (never a type error); and
the decoder treats a trailing `Z` exactly as `+00:00`, so
`2024-01-01T00:00:00Z` decodes to the same aware timestamp as
`2024-01-01T00:00:00+00:00`. -/
theorem c6_datetime_timezone :
    (∀ dt : DateTime, dt.tzOffsetMinutes = Option.none →
      object_to_json (.datetime dt) = .error (.jsonValueError
        ("timestamp lacks explicit time zone designator: " ++
          dt.isoformatSep ' ')))
    ∧ (∀ dt : DateTime, dt.tzOffsetMinutes = some 0 →
        ∃ s, object_to_json (.datetime dt) = .ok (.jstr s)
          ∧ s.data.getLast? = some 'Z'
          ∧ ¬ ("+00:00".data <:+ s.data))
    ∧ (∀ (s : String) (ts : DateTime),
        fromisoformatDateTime (stripTrailZ s) = .ok ts →
        ts.tzOffsetMinutes = Option.none →
        json_to_object .datetime (.jstr s) = .error (.jsonValueError
          ("timestamp lacks explicit time zone designator: " ++
            stripTrailZ s)))
    ∧ json_to_object .datetime (.jstr "2024-01-01T00:00:00Z") =
        json_to_object .datetime (.jstr "2024-01-01T00:00:00+00:00")
    ∧ json_to_object .datetime (.jstr "2024-01-01T00:00:00Z") =
        .ok (.datetime ⟨2024, 1, 1, 0, 0, 0, 0, some 0⟩) := by
  have hzdec : json_to_object .datetime (.jstr "2024-01-01T00:00:00Z") =
      .ok (.datetime ⟨2024, 1, 1, 0, 0, 0, 0, some 0⟩) := by
    simp [json_to_object, stripTrailZ, fromisoformatDateTime, parseDatePart,
      readFixed, digitVal, expectChar, parseTimePart, parseOffsetPart,
      validComponents, daysInMonth, isLeapYear]
  refine ⟨?_, ?_, ?_, ?_, hzdec⟩
  · intro dt htz
    rw [object_to_json, htz]
  · intro dt htz
    have hiso : dt.isoformat.data =
        (pad 4 dt.year ++ "-" ++ pad 2 dt.month ++ "-" ++ pad 2 dt.day ++
          String.singleton 'T' ++ pad 2 dt.hour ++ ":" ++ pad 2 dt.minute ++
          ":" ++ pad 2 dt.second ++ fracStr dt.microsecond).data ++
          "+00:00".data := by
      unfold DateTime.isoformat DateTime.isoformatSep
      rw [htz]
      simp [tzSuffix, offsetToStr_zero, String.data_append]
    have hz := zuluize_suffix dt.isoformat _ hiso
    refine ⟨zuluize dt.isoformat, ?_, ?_, ?_⟩
    · rw [object_to_json, htz]
    · rw [hz]
      exact List.getLast?_concat _
    · rw [hz]
      exact not_suffix_plus_of_last_Z _
  · intro s ts hparse htz
    rw [json_to_object]
    simp only [hparse, htz]
  · rw [hzdec]
    symm
    simp [json_to_object, stripTrailZ, fromisoformatDateTime, parseDatePart,
      readFixed, digitVal, expectChar, parseTimePart, parseOffsetPart,
      validComponents, daysInMonth, isLeapYear]

/-- Witness for C6 at concrete timestamps: the naive timestamp
2024-01-01 00:00:00 fails to encode with a value error; its UTC
counterpart encodes to a string ending in `Z`; and decoding the naive
string fails with a value error. -/
theorem c6_datetime_timezone_witness :
    object_to_json (.datetime ⟨2024, 1, 1, 0, 0, 0, 0, Option.none⟩) =
      .error (.jsonValueError
        ("timestamp lacks explicit time zone designator: " ++
          (DateTime.mk 2024 1 1 0 0 0 0 Option.none).isoformatSep ' '))
    ∧ (∃ s, object_to_json (.datetime ⟨2024, 1, 1, 0, 0, 0, 0, some 0⟩) =
        .ok (.jstr s) ∧ s.data.getLast? = some 'Z'
        ∧ ¬ ("+00:00".data <:+ s.data))
    ∧ json_to_object .datetime (.jstr "2024-01-01T00:00:00") =
        .error (.jsonValueError
          ("timestamp lacks explicit time zone designator: " ++
            stripTrailZ "2024-01-01T00:00:00")) := by
  refine ⟨c6_datetime_timezone.1 _ rfl, c6_datetime_timezone.2.1 _ rfl, ?_⟩
  exact c6_datetime_timezone.2.2.1 "2024-01-01T00:00:00"
    ⟨2024, 1, 1, 0, 0, 0, 0, Option.none⟩
    (by
      simp [stripTrailZ, fromisoformatDateTime, parseDatePart, readFixed,
        digitVal, expectChar, parseTimePart, parseOffsetPart,
        validComponents, daysInMonth, isLeapYear])
    rfl

/-- **C3 counterexample.** Decoding a JSON object with an extra key
against a named-tuple record declaring only field `a` succeeds,
silently ignoring the unconsumed key, instead of raising the
"unrecognized fields" key error the claim asserts for every record
shape. -/
theorem c3_namedtuple_ignores_extras_counterexample :
    json_to_object (.namedtuple "N" [("a", .int)])
        (.obj [(.pstr "a", .jint 1), (.pstr "extra", .jint 2)]) =
      .ok (.ntuple "N" [("a", .int 1)]) := by
  simp [json_to_object, as_json_dict, decodeNTFields, lookupKey]

/-- **C3 (amended).** Only the dataclass branch performs the
unrecognized-key check: if some key of the JSON object is consumed by
no declared field, decoding a dataclass never succeeds, and whenever
the per-field pass itself succeeds the result is the `JsonKeyError`
listing the unconsumed keys.  (Named-tuple records perform no such
check, as the counterexample shows.) -/
theorem c3_dataclass_rejects_unrecognized (cls : String)
    (fields : List FieldDecl) (ms : List (Prim × JsonValue)) (k : Prim)
    (hk : k ∈ ms.map Prod.fst)
    (hnot : primInNames (fields.map (fun f =>
      python_id_to_json_field f.fname (some f.ftype))) k = false) :
    (∀ v, json_to_object (.dataclass cls fields) (.obj ms) ≠ .ok v)
    ∧ (∀ fvs, decodeDCFields fields ms (jsonStr (.obj ms)) = .ok fvs →
        json_to_object (.dataclass cls fields) (.obj ms) =
          .error (.jsonKeyError
            ("unrecognized fields in JSON object: [" ++
              primsRepr ((ms.filter (fun m => ! primInNames
                (fields.map (fun f =>
                  python_id_to_json_field f.fname (some f.ftype))) m.1)).map
                (fun m => m.1)) ++ "]"))) := by
  have hbad : ms.filter (fun m => ! primInNames
      (fields.map (fun f =>
        python_id_to_json_field f.fname (some f.ftype))) m.1) ≠ [] := by
    rw [List.mem_map] at hk
    obtain ⟨m, hm, hmk⟩ := hk
    intro hcon
    have hmem : m ∈ ms.filter (fun m => ! primInNames
        (fields.map (fun f =>
          python_id_to_json_field f.fname (some f.ftype))) m.1) := by
      rw [List.mem_filter]
      exact ⟨hm, by rw [hmk, hnot]; rfl⟩
    rw [hcon] at hmem
    exact absurd hmem (by simp)
  constructor
  · intro v
    rw [json_to_object]
    simp only [as_json_dict]
    cases hdc : decodeDCFields fields ms (jsonStr (.obj ms)) with
    | error e => simp
    | ok fvs =>
      cases hb : ms.filter (fun m => ! primInNames
          (fields.map (fun f =>
            python_id_to_json_field f.fname (some f.ftype))) m.1) with
      | nil => exact absurd hb hbad
      | cons u us => simp [hb]
  · intro fvs hdc
    rw [json_to_object]
    simp only [as_json_dict, hdc]
    cases hb : ms.filter (fun m => ! primInNames
        (fields.map (fun f =>
          python_id_to_json_field f.fname (some f.ftype))) m.1) with
    | nil => exact absurd hb hbad
    | cons u us => rfl

/-- Witness for the amended C3: an extra key `extra` against a
dataclass declaring only `a : int` raises the unrecognized-fields key
error. -/
theorem c3_dataclass_rejects_unrecognized_witness :
    json_to_object (.dataclass "R" [.mk "a" .int Option.none Option.none])
        (.obj [(.pstr "a", .jint 1), (.pstr "extra", .jint 2)]) =
      .error (.jsonKeyError ("unrecognized fields in JSON object: [" ++
        primsRepr [Prim.pstr "extra"] ++ "]")) := by
  have h := c3_dataclass_rejects_unrecognized "R"
    [.mk "a" .int Option.none Option.none]
    [(.pstr "a", .jint 1), (.pstr "extra", .jint 2)] (.pstr "extra")
    (by simp) (by simp [primInNames, python_id_to_json_field,
      FieldDecl.fname])
  have h2 := h.2 [("a", .int 1)]
    (by
      simp [decodeDCFields, lookupKey, python_id_to_json_field,
        dataclassFieldValue.eq_def, is_type_optional, unwrap_annotated_type,
        json_to_object])
  simpa [primInNames, python_id_to_json_field] using h2

/-- **C8 counterexample.** In a mixed dictionary whose first key is a
plain string, the enum-typed second key is rendered as its text
representation `"Side.LEFT"`, not by its underlying constant `"L"`:
only the first key's type selects the rendering for the whole
dictionary. -/
theorem c8_mixed_dict_key_counterexample :
    object_to_json (.dict [(.str "a", .int 1),
        (.enum "Side" "LEFT" (.pstr "L"), .int 2)]) =
      .ok (.obj [(.pstr "a", .jint 1), (.pstr "Side.LEFT", .jint 2)]) := by
  simp [object_to_json, Value.isEnum, encodeDictStr, pyStr]

theorem encodeDictEnum_spec (kvs : List (Value × Value))
    (ms : List (Prim × JsonValue)) (h : encodeDictEnum kvs = .ok ms) :
    List.Forall₂ (fun kv m => valueDotValue kv.1 = .ok m.1 ∧
      object_to_json kv.2 = .ok m.2) kvs ms := by
  induction kvs generalizing ms with
  | nil =>
    rw [encodeDictEnum] at h
    injection h with h1
    subst h1
    exact List.Forall₂.nil
  | cons kv kvs ih =>
    obtain ⟨k, v⟩ := kv
    rw [encodeDictEnum] at h
    cases hdv : valueDotValue k with
    | error e => rw [hdv] at h; exact absurd h (by simp)
    | ok p =>
      rw [hdv] at h
      cases hov : object_to_json v with
      | error e => rw [hov] at h; exact absurd h (by simp)
      | ok j =>
        rw [hov] at h
        cases hrec : encodeDictEnum kvs with
        | error e => rw [hrec] at h; exact absurd h (by simp)
        | ok ms2 =>
          rw [hrec] at h
          injection h with h1
          subst h1
          exact List.Forall₂.cons ⟨hdv, hov⟩ (ih ms2 hrec)

theorem encodeDictStr_spec (kvs : List (Value × Value))
    (ms : List (Prim × JsonValue)) (h : encodeDictStr kvs = .ok ms) :
    List.Forall₂ (fun kv m => m.1 = .pstr (pyStr kv.1) ∧
      object_to_json kv.2 = .ok m.2) kvs ms := by
  induction kvs generalizing ms with
  | nil =>
    rw [encodeDictStr] at h
    injection h with h1
    subst h1
    exact List.Forall₂.nil
  | cons kv kvs ih =>
    obtain ⟨k, v⟩ := kv
    rw [encodeDictStr] at h
    cases hov : object_to_json v with
    | error e => rw [hov] at h; exact absurd h (by simp)
    | ok j =>
      rw [hov] at h
      cases hrec : encodeDictStr kvs with
      | error e => rw [hrec] at h; exact absurd h (by simp)
      | ok ms2 =>
        rw [hrec] at h
        injection h with h1
        subst h1
        exact List.Forall₂.cons ⟨rfl, hov⟩ (ih ms2 hrec)

/-- **C8 (amended).** The rendering of dictionary keys is selected by
the type of the first key alone: when the first key is an enum member,
every key is rendered by its underlying constant (`key.value` — an
encoding that only succeeds if every key is an enum member); when the
first key is not an enum member, every key — including any enum-typed
one — is rendered as its `str(key)` text.  Values are encoded
recursively in both modes. -/
theorem c8_dict_key_encoding (kvs : List (Value × Value)) (j : JsonValue)
    (hok : object_to_json (.dict kvs) = .ok j) :
    (∀ k0 v0 rest, kvs = (k0, v0) :: rest → k0.isEnum = true →
      ∃ ms, j = .obj ms
        ∧ List.Forall₂ (fun kv m => valueDotValue kv.1 = .ok m.1 ∧
            object_to_json kv.2 = .ok m.2) kvs ms)
    ∧ (∀ k0 v0 rest, kvs = (k0, v0) :: rest → k0.isEnum = false →
        ∃ ms, j = .obj ms
          ∧ List.Forall₂ (fun kv m => m.1 = .pstr (pyStr kv.1) ∧
              object_to_json kv.2 = .ok m.2) kvs ms) := by
  constructor
  · intro k0 v0 rest hkvs he
    subst hkvs
    rw [object_to_json] at hok
    simp only [he, if_true] at hok
    cases hen : encodeDictEnum ((k0, v0) :: rest) with
    | error e => rw [hen] at hok; exact absurd hok (by simp)
    | ok ms =>
      rw [hen] at hok
      injection hok with h1
      exact ⟨ms, h1.symm, encodeDictEnum_spec _ _ hen⟩
  · intro k0 v0 rest hkvs he
    subst hkvs
    rw [object_to_json] at hok
    simp only [he, Bool.false_eq_true, if_false] at hok
    cases hen : encodeDictStr ((k0, v0) :: rest) with
    | error e => rw [hen] at hok; exact absurd hok (by simp)
    | ok ms =>
      rw [hen] at hok
      injection hok with h1
      exact ⟨ms, h1.symm, encodeDictStr_spec _ _ hen⟩

/-- Witness for the amended C8: a singleton enum-keyed dictionary
renders its key by the underlying constant, and a singleton
string-keyed dictionary renders its key as text. -/
theorem c8_dict_key_encoding_witness :
    (∃ ms, JsonValue.obj [(Prim.pstr "L", JsonValue.jint 2)] = .obj ms
      ∧ List.Forall₂ (fun kv m => valueDotValue kv.1 = .ok m.1 ∧
          object_to_json kv.2 = .ok m.2)
          [(.enum "Side" "LEFT" (.pstr "L"), .int 2)] ms)
    ∧ (∃ ms, JsonValue.obj [(Prim.pstr "a", JsonValue.jint 1)] = .obj ms
        ∧ List.Forall₂ (fun kv m => m.1 = .pstr (pyStr kv.1) ∧
            object_to_json kv.2 = .ok m.2) [(.str "a", .int 1)] ms) := by
  constructor
  · have henc : object_to_json (.dict [(.enum "Side" "LEFT" (.pstr "L"),
        .int 2)]) = .ok (.obj [(.pstr "L", .jint 2)]) := by
      simp [object_to_json, Value.isEnum, encodeDictEnum, valueDotValue]
    exact (c8_dict_key_encoding _ _ henc).1 _ _ _ rfl rfl
  · have henc : object_to_json (.dict [(.str "a", .int 1)]) =
        .ok (.obj [(.pstr "a", .jint 1)]) := by
      simp [object_to_json, Value.isEnum, encodeDictStr, pyStr]
    exact (c8_dict_key_encoding _ _ henc).2 _ _ _ rfl rfl

/-- **C10 counterexample.** A present key holding an explicit JSON
`null` against an `Optional[Color]` dataclass field is decoded against
the inner enum type, where the null fails the member lookup and raises
the host `ValueError` — a value-error kind, not the type-mismatch error
the claim asserts. -/
theorem c10_optional_enum_null_counterexample :
    json_to_object
        (.dataclass "R" [.mk "x"
          (.union [.enum "Color" [("RED", .pint 1)], .noneType])
          Option.none Option.none])
        (.obj [(.pstr "x", .null)]) =
      .error (.valueError ("None is not a valid Color")) := by
  have hfv : dataclassFieldValue "x"
      (.union [.enum "Color" [("RED", .pint 1)], .noneType])
      Option.none Option.none (some .null)
      (jsonStr (.obj [(.pstr "x", .null)])) =
      .error (.valueError ("None is not a valid Color")) := by
    rw [dataclassFieldValue_present_opt "x"
      (.union [.enum "Color" [("RED", .pint 1)], .noneType])
      (.enum "Color" [("RED", .pint 1)]) Option.none Option.none .null
      (jsonStr (.obj [(.pstr "x", .null)])) rfl rfl]
    simp [json_to_object, enumFromJson, jsonPrimEqB, jsonRepr]
  rw [json_to_object]
  simp only [as_json_dict]
  rw [decodeDCFields]
  simp only [lookupKey, python_id_to_json_field, reduceIte]
  rw [hfv]

/-- Types the decoder handles by a direct branch (not the none type,
not a union, not an `Annotated` wrapper). -/
def Typ.isPlain : Typ → Bool
  | .noneType => false
  | .union _ => false
  | .annotated _ _ => false
  | _ => true

/-- Whether a type is an enumeration type. -/
def Typ.isEnumTyp : Typ → Bool
  | .enum _ _ => true
  | _ => false

theorem jsonPrimEqB_null (p : Prim) (h : jsonPrimEqB .null p = true) :
    p = .pnull := by
  cases p <;> simp [jsonPrimEqB] at h ⊢

/-- **C10 (amended).** A present key on an `Optional` dataclass field is
decoded against the unwrapped inner type, so an explicit JSON `null`
never yields the absent value for a plain inner type; but the error
kind depends on the inner type: every plain non-enum type raises a
type-mismatch error, while an enum inner type (with no null-valued
member) raises the host `ValueError` — a value-error kind. -/
theorem c10_optional_present_null (fname : String) (ftype rt : Typ)
    (d fac : Option Value) (ms : List (Prim × JsonValue)) (r : String)
    (hfound : lookupKey (python_id_to_json_field fname (some ftype)) ms =
      some .null)
    (hopt : is_type_optional ftype false = true)
    (hun : unwrap_optional_type ftype = .ok rt) :
    dataclassFieldValue fname ftype d fac
        (lookupKey (python_id_to_json_field fname (some ftype)) ms) r =
      json_to_object rt .null
    ∧ (rt.isPlain = true →
        (json_to_object rt .null ≠ .ok .none)
        ∧ (rt.isEnumTyp = false →
            ∃ m, json_to_object rt .null = .error (.jsonTypeError m))
        ∧ (∀ cls mems, rt = .enum cls mems →
            (∀ mem ∈ mems, mem.2 ≠ Prim.pnull) →
            json_to_object rt .null =
              .error (.valueError ("None is not a valid " ++ cls)))) := by
  constructor
  · rw [hfound]
    exact dataclassFieldValue_present_opt fname ftype rt d fac .null r
      hopt hun
  · intro hplain
    refine ⟨?_, ?_, ?_⟩
    · cases rt with
      | noneType => exact absurd hplain (by simp [Typ.isPlain])
      | union ts => exact absurd hplain (by simp [Typ.isPlain])
      | annotated t meta => exact absurd hplain (by simp [Typ.isPlain])
      | enum cls mems =>
        rw [json_to_object]
        unfold enumFromJson
        split <;> simp
      | bool => simp [json_to_object]
      | int => simp [json_to_object]
      | float => simp [json_to_object]
      | str => simp [json_to_object]
      | bytes => simp [json_to_object]
      | datetime => simp [json_to_object]
      | date => simp [json_to_object]
      | time => simp [json_to_object]
      | uuid => simp [json_to_object]
      | list t => simp [json_to_object, as_json_list]
      | dict kT vT => simp [json_to_object, as_json_dict]
      | set t => simp [json_to_object, as_json_list]
      | tuple ts => simp [json_to_object, as_json_list]
      | dataclass cls fs => simp [json_to_object, as_json_dict]
      | namedtuple cls fs => simp [json_to_object, as_json_dict]
    · intro hne
      cases rt with
      | noneType => exact absurd hplain (by simp [Typ.isPlain])
      | union ts => exact absurd hplain (by simp [Typ.isPlain])
      | annotated t meta => exact absurd hplain (by simp [Typ.isPlain])
      | enum cls mems => exact absurd hne (by simp [Typ.isEnumTyp])
      | bool => simp [json_to_object]
      | int => simp [json_to_object]
      | float => simp [json_to_object]
      | str => simp [json_to_object]
      | bytes => simp [json_to_object]
      | datetime => simp [json_to_object]
      | date => simp [json_to_object]
      | time => simp [json_to_object]
      | uuid => simp [json_to_object]
      | list t => simp [json_to_object, as_json_list]
      | dict kT vT => simp [json_to_object, as_json_dict]
      | set t => simp [json_to_object, as_json_list]
      | tuple ts => simp [json_to_object, as_json_list]
      | dataclass cls fs => simp [json_to_object, as_json_dict]
      | namedtuple cls fs => simp [json_to_object, as_json_dict]
    · intro cls mems heq hnonull
      subst heq
      rw [json_to_object]
      unfold enumFromJson
      cases hfind : mems.find? (fun m => jsonPrimEqB .null m.2) with
      | some nm =>
        have hp := List.find?_some hfind
        have hmem := List.mem_of_find?_eq_some hfind
        exact absurd (jsonPrimEqB_null nm.2 hp) (hnonull nm hmem)
      | none => rfl

/-- Witness for the amended C10 at the field `x : Optional[Color]` and
a present explicit null: the field decode equals the inner-enum decode,
which yields neither the absent value nor a type error but the host
`ValueError`. -/
theorem c10_optional_present_null_witness :
    dataclassFieldValue "x"
        (.union [.enum "Color" [("RED", .pint 1)], .noneType])
        Option.none Option.none
        (lookupKey (python_id_to_json_field "x"
          (some (.union [.enum "Color" [("RED", .pint 1)], .noneType])))
          [(.pstr "x", .null)]) "" =
      json_to_object (.enum "Color" [("RED", .pint 1)]) .null
    ∧ json_to_object (.enum "Color" [("RED", .pint 1)]) .null ≠ .ok .none
    ∧ json_to_object (.enum "Color" [("RED", .pint 1)]) .null =
        .error (.valueError ("None is not a valid Color")) := by
  have h := c10_optional_present_null "x"
    (.union [.enum "Color" [("RED", .pint 1)], .noneType])
    (.enum "Color" [("RED", .pint 1)]) Option.none Option.none
    [(.pstr "x", .null)] "" rfl rfl rfl
  have h2 := h.2 rfl
  exact ⟨h.1, h2.1, h2.2.2 "Color" [("RED", .pint 1)] rfl
    (by intro mem hm; simp at hm; subst hm; simp)⟩

/-- The type a present field value is decoded against in the dataclass
branch: the required-unwrapped field type for an `Optional` field (the
declared type itself when unwrapping is impossible), and the declared
type otherwise. -/
def fieldDecodeTyp (t : Typ) : Typ :=
  if is_type_optional t false then
    match unwrap_optional_type t with
    | .ok rt => rt
    | .error _ => t
  else t

theorem fieldDecodeTyp_sizeOf (t : Typ) :
    sizeOf (fieldDecodeTyp t) ≤ sizeOf t := by
  unfold fieldDecodeTyp
  split
  · split
    · rename_i rt h
      exact unwrap_optional_type_sizeOf t rt h
    · exact le_refl _
  · exact le_refl _

mutual

/-- The value produced by decoding the encoding of a well-typed value:
the identity on scalars, containers rebuilt element-wise (sets and
dictionaries re-assembled as Python rebuilds them), and a record field
holding the absent value — whose key the encoder omits — resolved to
the field's declared default, else its factory value, else the absent
value again. -/
def absorbDefaults : Typ → Value → Value
  | .list t, .list xs => .list (absorbList t xs)
  | .set t, .set xs => .set (pySetOfList (absorbList t xs))
  | .tuple ts, .tuple xs => .tuple (absorbZip ts xs)
  | .dict kT vT, .dict kvs => .dict (pyDictOfList (absorbEntries kT vT kvs))
  | .dataclass cls fields, .record _ fvs =>
    .record cls (absorbFields fields fvs)
  | _, v => v
termination_by t v => sizeOf t + sizeOf v
decreasing_by
  all_goals simp_wf
  all_goals omega

def absorbList (t : Typ) : List Value → List Value
  | [] => []
  | x :: xs => absorbDefaults t x :: absorbList t xs
termination_by xs => sizeOf t + sizeOf xs
decreasing_by
  all_goals simp_wf
  all_goals omega

def absorbZip : List Typ → List Value → List Value
  | t :: ts, x :: xs => absorbDefaults t x :: absorbZip ts xs
  | _, _ => []
termination_by ts xs => sizeOf ts + sizeOf xs
decreasing_by
  all_goals simp_wf
  all_goals omega

def absorbEntries (kT vT : Typ) : List (Value × Value) →
    List (Value × Value)
  | [] => []
  | (k, v) :: kvs => (k, absorbDefaults vT v) :: absorbEntries kT vT kvs
termination_by kvs => sizeOf vT + sizeOf kvs
decreasing_by
  all_goals simp_wf
  all_goals omega

def absorbFields : List FieldDecl → List (String × Value) →
    List (String × Value)
  | .mk n t dflt fac :: fs, (_, v) :: fvs =>
    (n,
      if v.isNone then
        match dflt with
        | some dv => dv
        | Option.none =>
          match fac with
          | some fv => fv
          | Option.none => .none
      else absorbDefaults (fieldDecodeTyp t) v) :: absorbFields fs fvs
  | _, _ => []
termination_by fs fvs => sizeOf fs + sizeOf fvs
decreasing_by
  all_goals simp_wf
  all_goals try omega
  · have h6 := fieldDecodeTyp_sizeOf t
    omega

end

/-- Dictionary-key types whose construction from the encoder's
`str(key)` rendering inverts it: text and integer keys.  Other key
kinds are not invertible and are deliberately outside the round-trip
statement: a `bool` key `False` renders as `"False"` and is
reconstructed by truthiness as `bool("False") = True` (see the
counterexample), and enum-, float- and UUID-keyed dictionaries
likewise do not reconstruct the original key from its text. -/
inductive DictKeyOk : Value → Typ → Prop
  | str (s : String) : DictKeyOk (.str s) .str
  | int (n : Int) : DictKeyOk (.int n) .int

/-- Well-typed values of the supported shapes: primitives,
timezone-aware valid datetimes, byte strings, UUIDs, enumeration
members canonically reachable by valueless lookup, and lists, sets,
dictionaries, fixed tuples and dataclass records built from them. -/
inductive HasType : Value → Typ → Prop
  | none_ : HasType .none .noneType
  | bool (b : Bool) : HasType (.bool b) .bool
  | int (n : Int) : HasType (.int n) .int
  | float (x : PyFloat) : HasType (.float x) .float
  | str (s : String) : HasType (.str s) .str
  | bytes (bs : List Nat) (h : ∀ x ∈ bs, x < 256) :
      HasType (.bytes bs) .bytes
  | datetime (dt : DateTime) (hv : dt.Valid) (off : Int)
      (haware : dt.tzOffsetMinutes = some off) :
      HasType (.datetime dt) .datetime
  | uuid (n : Nat) (h : n < 2 ^ 128) : HasType (.uuid n) .uuid
  | enum (cls : String) (members : List (String × Prim)) (mname : String)
      (val : Prim)
      (hfind : members.find? (fun m => jsonPrimEqB (primToJson val) m.2) =
        some (mname, val)) :
      HasType (.enum cls mname val) (.enum cls members)
  | list (xs : List Value) (t : Typ) (h : ∀ x ∈ xs, HasType x t) :
      HasType (.list xs) (.list t)
  | set (xs : List Value) (t : Typ) (h : ∀ x ∈ xs, HasType x t) :
      HasType (.set xs) (.set t)
  | tuple (xs : List Value) (ts : List Typ) (hlen : xs.length = ts.length)
      (h : ∀ p ∈ List.zip xs ts, HasType p.1 p.2) :
      HasType (.tuple xs) (.tuple ts)
  | dict (kvs : List (Value × Value)) (kT vT : Typ)
      (hk : ∀ kv ∈ kvs, DictKeyOk kv.1 kT)
      (hv : ∀ kv ∈ kvs, HasType kv.2 vT) :
      HasType (.dict kvs) (.dict kT vT)
  | record (cls : String) (fvs : List (String × Value))
      (fields : List FieldDecl)
      (hlen : fvs.length = fields.length)
      (hnodup : (fields.map FieldDecl.fname).Nodup)
      (hname : ∀ p ∈ List.zip fvs fields, p.1.1 = p.2.fname)
      (hopt : ∀ p ∈ List.zip fvs fields, p.1.2 = .none →
        is_type_optional p.2.ftype false = true)
      (hcontent : ∀ p ∈ List.zip fvs fields, p.1.2 ≠ .none →
        HasType p.1.2 (fieldDecodeTyp p.2.ftype)) :
      HasType (.record cls fvs) (.dataclass cls fields)

theorem toBasePadded_two (n : Nat) :
    toBasePadded 10 2 n = [digitChar (n / 10), digitChar (n % 10)] := by
  show digitChar (n / 10 ^ 1) ::
      toBasePadded 10 1 (n % 10 ^ 1) = _
  norm_num [toBasePadded]

theorem readFixed_digits_00 : readFixed 10 2 0 (['0', '0'] ++ []) =
    some (0, []) := rfl

theorem toBasePadded_two_zero (n : Nat) (hn : n < 100)
    (h : toBasePadded 10 2 n = ['0', '0']) : n = 0 := by
  have h1 := readFixed_toBasePadded 10 (by norm_num) (by norm_num) 2 n 0 []
    (by simpa using hn)
  rw [h] at h1
  rw [readFixed_digits_00] at h1
  injection h1 with h2
  have h3 : 0 * 10 ^ 2 + n = 0 := by
    have := congrArg Prod.fst h2.symm
    simpa using this
  omega

theorem offsetToStr_data_decomp (off : Int) :
    (offsetToStr off).data =
      (if off < 0 then '-' else '+') ::
        (toBasePadded 10 2 (off.natAbs / 60) ++
          ':' :: toBasePadded 10 2 (off.natAbs % 60)) := by
  unfold offsetToStr
  by_cases hneg : off < 0 <;>
    simp [hneg, String.data_append, pad]

theorem offsetToStr_length (off : Int) :
    (offsetToStr off).data.length = 6 := by
  rw [offsetToStr_data_decomp]
  simp [toBasePadded_length]

theorem plus_zero_data :
    ("+00:00" : String).data = ['+', '0', '0', ':', '0', '0'] := rfl

theorem offsetToStr_ne_plus_zero (off : Int) (habs : off.natAbs ≤ 1439)
    (hne : off ≠ 0) : (offsetToStr off).data ≠ "+00:00".data := by
  rw [offsetToStr_data_decomp, plus_zero_data]
  intro hcon
  by_cases hneg : off < 0
  · rw [if_pos hneg] at hcon
    injection hcon with hhead _
    exact absurd hhead (by decide)
  · rw [if_neg hneg] at hcon
    injection hcon with _ htail
    have hH2 := toBasePadded_length 10 2 (off.natAbs / 60)
    obtain ⟨a, b, hab⟩ := List.length_eq_two.mp hH2
    rw [hab] at htail
    simp only [List.cons_append, List.nil_append, List.cons.injEq] at htail
    obtain ⟨ha, hb, _, hM⟩ := htail
    subst ha
    subst hb
    have hHzero : off.natAbs / 60 = 0 :=
      toBasePadded_two_zero _ (by omega) hab
    have hMzero : off.natAbs % 60 = 0 :=
      toBasePadded_two_zero _ (by omega) hM
    have habs0 : off.natAbs = 0 := by omega
    exact hne (Int.natAbs_eq_zero.mp habs0)

theorem isoformat_data_aware (dt : DateTime) (off : Int)
    (htz : dt.tzOffsetMinutes = some off) :
    dt.isoformat.data =
      (pad 4 dt.year ++ "-" ++ pad 2 dt.month ++ "-" ++ pad 2 dt.day ++
        String.singleton 'T' ++ pad 2 dt.hour ++ ":" ++ pad 2 dt.minute ++
        ":" ++ pad 2 dt.second ++ fracStr dt.microsecond).data ++
        (offsetToStr off).data := by
  unfold DateTime.isoformat DateTime.isoformatSep
  rw [htz]
  simp [tzSuffix, String.data_append]

theorem stripTrailZ_of_getLast_ne (s : String)
    (h : ∀ c, s.data.getLast? = some c → c ≠ 'Z') : stripTrailZ s = s := by
  unfold stripTrailZ
  cases hl : s.data.getLast? with
  | none => rfl
  | some c =>
    show (if c = 'Z' then String.mk (s.data.dropLast ++ "+00:00".data)
      else s) = s
    rw [if_neg (h c hl)]

theorem digitChar_ne_Z (d : Nat) (hd : d < 10) : digitChar d ≠ 'Z' := by
  intro hcon
  have h1 := digitChar_toNat_ranges d (by omega)
  rw [hcon] at h1
  have h2 : ('Z').toNat = 90 := rfl
  omega

theorem getLast?_append_cons_append (X : List Char) (s : Char)
    (A : List Char) (c1 c2 c3 : Char) :
    (X ++ (s :: (A ++ c1 :: [c2, c3]))).getLast? = some c3 := by
  have h : X ++ (s :: (A ++ c1 :: [c2, c3])) =
      (X ++ (s :: (A ++ [c1, c2]))) ++ [c3] := by simp
  rw [h, List.getLast?_concat]

theorem getLast?_isoformat_aware (dt : DateTime) (off : Int)
    (htz : dt.tzOffsetMinutes = some off) :
    dt.isoformat.data.getLast? = some (digitChar (off.natAbs % 60 % 10)) := by
  rw [isoformat_data_aware dt off htz, offsetToStr_data_decomp,
    toBasePadded_two (off.natAbs % 60)]
  exact getLast?_append_cons_append _ _ _ _ _ _

theorem isoformat_data_utc (dt : DateTime)
    (htz : dt.tzOffsetMinutes = some 0) :
    dt.isoformat.data =
      (pad 4 dt.year ++ "-" ++ pad 2 dt.month ++ "-" ++ pad 2 dt.day ++
        String.singleton 'T' ++ pad 2 dt.hour ++ ":" ++ pad 2 dt.minute ++
        ":" ++ pad 2 dt.second ++ fracStr dt.microsecond).data ++
        "+00:00".data := by
  rw [isoformat_data_aware dt 0 htz, offsetToStr_zero]

/-- Decoding the encoder's rendering of a timezone-aware valid datetime
(the `Z`-suffixed form for UTC, the explicit offset otherwise) returns
the original timestamp. -/
theorem decode_encoded_datetime (dt : DateTime) (hv : dt.Valid) (off : Int)
    (hoff : dt.tzOffsetMinutes = some off) :
    json_to_object .datetime (.jstr (zuluize dt.isoformat)) =
      .ok (.datetime dt) := by
  by_cases hzero : off = 0
  · subst hzero
    have hiso := isoformat_data_utc dt hoff
    have hz := zuluize_suffix dt.isoformat _ hiso
    have hstrip : stripTrailZ (zuluize dt.isoformat) = dt.isoformat := by
      unfold stripTrailZ
      rw [hz]
      simp only [List.getLast?_concat, reduceIte, List.dropLast_concat]
      rw [← hiso]
    rw [json_to_object]
    simp only [hstrip, fromisoformat_isoformat dt hv, hoff]
  · obtain ⟨h1, h2, h3, h4, h5, h6, h7, h8, h9, h10, h11⟩ := hv
    have habs : off.natAbs ≤ 1439 := h11 off (by rw [hoff]; rfl)
    have hnosuf : ¬ ("+00:00".data <:+ dt.isoformat.data) := by
      rw [isoformat_data_aware dt off hoff]
      rintro ⟨tt, htt⟩
      have hlen : ("+00:00".data).length = ((offsetToStr off).data).length := by
        rw [offsetToStr_length]
        rfl
      have h12 := (List.append_inj' htt hlen).2
      exact offsetToStr_ne_plus_zero off habs hzero h12.symm
    have hzl : zuluize dt.isoformat = dt.isoformat := zuluize_nonzero _ hnosuf
    have hstrip : stripTrailZ dt.isoformat = dt.isoformat := by
      apply stripTrailZ_of_getLast_ne
      intro c hc
      rw [getLast?_isoformat_aware dt off hoff] at hc
      injection hc with hc1
      rw [← hc1]
      exact digitChar_ne_Z _ (by omega)
    rw [hzl, json_to_object]
    simp only [hstrip, fromisoformat_isoformat dt
      ⟨h1, h2, h3, h4, h5, h6, h7, h8, h9, h10, h11⟩, hoff]

theorem value_isNone_iff (v : Value) : v.isNone = true ↔ v = .none := by
  cases v <;> simp [Value.isNone]

theorem hasType_not_optional (v : Value) (t : Typ) (ht : HasType v t) :
    is_type_optional t false = false := by
  cases ht <;> rfl

theorem dictKeyOk_not_enum (k : Value) (kT : Typ) (h : DictKeyOk k kT) :
    k.isEnum = false := by
  cases h <;> rfl

theorem keyConstruct_pyStr (k : Value) (kT : Typ) (hk : DictKeyOk k kT) :
    keyConstruct kT (.pstr (pyStr k)) = .ok k := by
  cases hk with
  | str s => rfl
  | int n =>
    show keyConstruct .int (.pstr (String.mk (intToStr n))) = .ok (.int n)
    simp [keyConstruct, data_mk, strToInt_intToStr]

theorem mem_zip_left {α β : Type} (l1 : List α) (l2 : List β)
    (hlen : l1.length = l2.length) (a : α) (ha : a ∈ l1) :
    ∃ b, (a, b) ∈ List.zip l1 l2 := by
  induction l1 generalizing l2 with
  | nil => simp at ha
  | cons x l1 ih =>
    cases l2 with
    | nil => simp at hlen
    | cons y l2 =>
      rcases List.mem_cons.mp ha with h1 | h1
      · exact ⟨y, by simp [h1]⟩
      · obtain ⟨b, hb⟩ := ih l2 (by simpa using hlen) h1
        exact ⟨b, by simp [hb]⟩

theorem encode_decode_items (t : Typ) (xs : List Value)
    (hall : ∀ x ∈ xs, ∃ j, object_to_json x = .ok j ∧
      json_to_object t j = .ok (absorbDefaults t x)) :
    ∃ js, encodeItems xs = .ok js ∧
      decodeItems t js = .ok (absorbList t xs) := by
  induction xs with
  | nil =>
    refine ⟨[], by rw [encodeItems.eq_def], ?_⟩
    rw [decodeItems.eq_def, absorbList.eq_def]
  | cons x xs ih =>
    obtain ⟨j, hej, hdj⟩ := hall x (by simp)
    obtain ⟨js, hejs, hdjs⟩ := ih (fun y hy => hall y (by simp [hy]))
    refine ⟨j :: js, ?_, ?_⟩
    · rw [encodeItems, hej, hejs]
    · rw [decodeItems, hdj, hdjs, absorbList]

theorem encode_decode_zip (ts : List Typ) (xs : List Value)
    (hlen : xs.length = ts.length)
    (hall : ∀ p ∈ List.zip xs ts, ∃ j, object_to_json p.1 = .ok j ∧
      json_to_object p.2 j = .ok (absorbDefaults p.2 p.1)) :
    ∃ js, encodeItems xs = .ok js ∧
      decodeZip ts js = .ok (absorbZip ts xs) := by
  induction xs generalizing ts with
  | nil =>
    cases ts with
    | nil =>
      refine ⟨[], by rw [encodeItems.eq_def], ?_⟩
      rw [decodeZip.eq_def, absorbZip.eq_def]
    | cons t ts => simp at hlen
  | cons x xs ih =>
    cases ts with
    | nil => simp at hlen
    | cons t ts =>
      obtain ⟨j, hej, hdj⟩ := hall (x, t) (by simp)
      obtain ⟨js, hejs, hdjs⟩ := ih ts (by simpa using hlen)
        (fun p hp => hall p (by simp [hp]))
      refine ⟨j :: js, ?_, ?_⟩
      · rw [encodeItems, hej, hejs]
      · rw [decodeZip, hdj, hdjs, absorbZip]

theorem encode_decode_entries (kT vT : Typ) (kvs : List (Value × Value))
    (hk : ∀ kv ∈ kvs, DictKeyOk kv.1 kT)
    (hall : ∀ kv ∈ kvs, ∃ j, object_to_json kv.2 = .ok j ∧
      json_to_object vT j = .ok (absorbDefaults vT kv.2)) :
    ∃ ms, encodeDictStr kvs = .ok ms ∧
      decodeDictItems kT vT ms = .ok (absorbEntries kT vT kvs) := by
  induction kvs with
  | nil =>
    refine ⟨[], by rw [encodeDictStr.eq_def], ?_⟩
    rw [decodeDictItems.eq_def, absorbEntries.eq_def]
  | cons kv kvs ih =>
    obtain ⟨k, v⟩ := kv
    obtain ⟨j, hej, hdj⟩ := hall (k, v) (by simp)
    obtain ⟨ms, hems, hdms⟩ := ih (fun p hp => hk p (by simp [hp]))
      (fun p hp => hall p (by simp [hp]))
    refine ⟨(.pstr (pyStr k), j) :: ms, ?_, ?_⟩
    · rw [encodeDictStr, hej, hems]
    · rw [decodeDictItems, keyConstruct_pyStr k kT (hk (k, v) (by simp)),
        hdj, hdms, absorbEntries]

theorem encodeFields_ok (fvs : List (String × Value))
    (hall : ∀ fv ∈ fvs, fv.2 ≠ .none →
      ∃ j, object_to_json fv.2 = .ok j) :
    ∃ ms, encodeFields fvs = .ok ms := by
  induction fvs with
  | nil => exact ⟨[], by rw [encodeFields.eq_def]⟩
  | cons f fs ih =>
    obtain ⟨n, v⟩ := f
    obtain ⟨ms, hms⟩ := ih (fun fv hfv => hall fv (by simp [hfv]))
    rw [encodeFields_cons]
    cases hv : v.isNone with
    | true => exact ⟨ms, by rw [if_pos rfl, hms]⟩
    | false =>
      obtain ⟨j, hj⟩ := hall (n, v) (by simp)
        (fun hcon => by
          have hcon2 : v = Value.none := hcon
          rw [hcon2] at hv
          simp [Value.isNone] at hv)
      exact ⟨(.pstr (python_id_to_json_field n Option.none), j) :: ms,
        by rw [if_neg (by simp), hj, hms]⟩

theorem lookupKey_encodeFields_absent (n : String)
    (fvs : List (String × Value)) (ms : List (Prim × JsonValue))
    (h : encodeFields fvs = .ok ms) (hno : ∀ fv ∈ fvs, fv.1 ≠ n) :
    lookupKey n ms = Option.none := by
  induction fvs generalizing ms with
  | nil =>
    rw [encodeFields.eq_def] at h
    injection h with h1
    subst h1
    rfl
  | cons f fs ih =>
    obtain ⟨n0, v0⟩ := f
    rw [encodeFields_cons] at h
    cases hv : v0.isNone with
    | true =>
      rw [hv, if_pos rfl] at h
      exact ih ms h (fun fv hfv => hno fv (by simp [hfv]))
    | false =>
      rw [hv, if_neg (by simp)] at h
      cases hoj : object_to_json v0 with
      | error e => rw [hoj] at h; exact absurd h (by simp)
      | ok j =>
        rw [hoj] at h
        cases hrec : encodeFields fs with
        | error e => rw [hrec] at h; exact absurd h (by simp)
        | ok ms2 =>
          rw [hrec] at h
          injection h with h1
          subst h1
          have hne : n0 ≠ n := hno (n0, v0) (by simp)
          show lookupKey n
            ((.pstr (python_id_to_json_field n0 Option.none), j) :: ms2) =
              Option.none
          simp only [lookupKey, python_id_to_json_field, if_neg hne]
          exact ih ms2 hrec (fun fv hfv => hno fv (by simp [hfv]))

theorem lookupKey_encodeFields (n : String) (v : Value)
    (fvs : List (String × Value)) (ms : List (Prim × JsonValue))
    (h : encodeFields fvs = .ok ms)
    (hpair : fvs.Pairwise (fun a b => a.1 ≠ b.1))
    (hmem : (n, v) ∈ fvs) :
    (v = .none → lookupKey n ms = Option.none)
    ∧ (v ≠ .none → ∀ j, object_to_json v = .ok j →
        lookupKey n ms = some j) := by
  induction fvs generalizing ms with
  | nil => simp at hmem
  | cons f fs ih =>
    obtain ⟨n0, v0⟩ := f
    rw [encodeFields_cons] at h
    rw [List.pairwise_cons] at hpair
    rcases List.mem_cons.mp hmem with heq | hmem2
    · rw [Prod.mk.injEq] at heq
      obtain ⟨hn1, hv1⟩ := heq
      rw [← hn1, ← hv1] at h
      constructor
      · intro hvn
        rw [hvn] at h
        rw [show (Value.none).isNone = true from rfl, if_pos rfl] at h
        refine lookupKey_encodeFields_absent n fs ms h ?_
        intro fv hfv hcon
        have h2 := hpair.1 fv hfv
        rw [← hn1] at h2
        exact h2 hcon.symm
      · intro hvn j hj
        have hvb : v.isNone = false := by
          cases hb : v.isNone with
          | false => rfl
          | true => exact absurd ((value_isNone_iff v).mp hb) hvn
        rw [hvb, if_neg (by simp), hj] at h
        cases hrec : encodeFields fs with
        | error e => rw [hrec] at h; exact absurd h (by simp)
        | ok ms2 =>
          rw [hrec] at h
          injection h with h1
          subst h1
          show lookupKey n
            ((.pstr (python_id_to_json_field n Option.none), j) :: ms2) =
              some j
          simp [lookupKey, python_id_to_json_field]
    · have hne : n0 ≠ n := by
        have := hpair.1 (n, v) hmem2
        exact this
      cases hv : v0.isNone with
      | true =>
        rw [hv, if_pos rfl] at h
        exact ih ms h hpair.2 hmem2
      | false =>
        rw [hv, if_neg (by simp)] at h
        cases hoj : object_to_json v0 with
        | error e => rw [hoj] at h; exact absurd h (by simp)
        | ok j0 =>
          rw [hoj] at h
          cases hrec : encodeFields fs with
          | error e => rw [hrec] at h; exact absurd h (by simp)
          | ok ms2 =>
            rw [hrec] at h
            injection h with h1
            subst h1
            have hrec2 := ih ms2 hrec hpair.2 hmem2
            constructor
            · intro hvn
              show lookupKey n
                ((.pstr (python_id_to_json_field n0 Option.none), j0) ::
                  ms2) = Option.none
              simp only [lookupKey, python_id_to_json_field, if_neg hne]
              exact hrec2.1 hvn
            · intro hvn j hj
              show lookupKey n
                ((.pstr (python_id_to_json_field n0 Option.none), j0) ::
                  ms2) = some j
              simp only [lookupKey, python_id_to_json_field, if_neg hne]
              exact hrec2.2 hvn j hj

theorem absorbFields_cons (n : String) (t : Typ) (dflt fac : Option Value)
    (fs : List FieldDecl) (fn : String) (v : Value)
    (fvs : List (String × Value)) :
    absorbFields (.mk n t dflt fac :: fs) ((fn, v) :: fvs) =
      (n,
        if v.isNone then
          match dflt with
          | some dv => dv
          | Option.none =>
            match fac with
            | some fv2 => fv2
            | Option.none => .none
        else absorbDefaults (fieldDecodeTyp t) v) :: absorbFields fs fvs := by
  rw [absorbFields.eq_def]

theorem decodeDCFields_absorb (fields : List FieldDecl)
    (fvs : List (String × Value)) (ms : List (Prim × JsonValue))
    (r : String)
    (hlen : fvs.length = fields.length)
    (hopt : ∀ p ∈ List.zip fvs fields, p.1.2 = .none →
      is_type_optional p.2.ftype false = true)
    (hlook_none : ∀ p ∈ List.zip fvs fields, p.1.2 = .none →
      lookupKey p.2.fname ms = Option.none)
    (hlook_some : ∀ p ∈ List.zip fvs fields, p.1.2 ≠ .none →
      ∃ j, lookupKey p.2.fname ms = some j ∧
        json_to_object (fieldDecodeTyp p.2.ftype) j =
          .ok (absorbDefaults (fieldDecodeTyp p.2.ftype) p.1.2))
    (hnotopt : ∀ p ∈ List.zip fvs fields, p.1.2 ≠ .none →
      is_type_optional (fieldDecodeTyp p.2.ftype) false = false) :
    decodeDCFields fields ms r = .ok (absorbFields fields fvs) := by
  induction fields generalizing fvs with
  | nil =>
    cases fvs with
    | cons _ _ => simp at hlen
    | nil => rw [decodeDCFields.eq_def, absorbFields.eq_def]
  | cons f fs ih =>
    cases fvs with
    | nil => simp at hlen
    | cons fv fvs2 =>
      obtain ⟨n, t, d, fac⟩ := f
      obtain ⟨fn, v⟩ := fv
      have hp0 : ((fn, v), FieldDecl.mk n t d fac) ∈
          List.zip ((fn, v) :: fvs2) (FieldDecl.mk n t d fac :: fs) := by
        simp
      have hrec := ih fvs2 (by simpa using hlen)
        (fun p hp => hopt p (by simp [hp]))
        (fun p hp => hlook_none p (by simp [hp]))
        (fun p hp => hlook_some p (by simp [hp]))
        (fun p hp => hnotopt p (by simp [hp]))
      rw [decodeDCFields]
      by_cases hvn : v = Value.none
      · have hlk2 : lookupKey (python_id_to_json_field n (some t)) ms =
            Option.none := hlook_none _ hp0 hvn
        have hoptT : is_type_optional t false = true := hopt _ hp0 hvn
        subst hvn
        rw [hlk2, dataclassFieldValue_absent]
        cases d with
        | some dv => simp [absorbFields_cons, Value.isNone, hrec]
        | none =>
          cases fac with
          | some fv2 => simp [absorbFields_cons, Value.isNone, hrec]
          | none => simp [absorbFields_cons, Value.isNone, hoptT, hrec]
      · obtain ⟨j, hlk, hdec⟩ := hlook_some _ hp0 hvn
        have hlk2 : lookupKey (python_id_to_json_field n (some t)) ms =
            some j := hlk
        have hdec2 : json_to_object (fieldDecodeTyp t) j =
            .ok (absorbDefaults (fieldDecodeTyp t) v) := hdec
        have hvb : v.isNone = false := by
          cases hb : v.isNone with
          | false => rfl
          | true => exact absurd ((value_isNone_iff v).mp hb) hvn
        rw [hlk2]
        by_cases hoptb : is_type_optional t false = true
        · cases hun : unwrap_optional_type t with
          | error e =>
            have hft : fieldDecodeTyp t = t := by
              unfold fieldDecodeTyp
              rw [if_pos hoptb, hun]
            have hno : is_type_optional (fieldDecodeTyp t) false = false :=
              hnotopt _ hp0 hvn
            rw [hft] at hno
            rw [hno] at hoptb
            exact absurd hoptb (by simp)
          | ok rt =>
            have hft : fieldDecodeTyp t = rt := by
              unfold fieldDecodeTyp
              rw [if_pos hoptb, hun]
            rw [dataclassFieldValue_present_opt n t rt d fac j r hoptb hun]
            rw [hft] at hdec2
            rw [hdec2, hrec]
            rw [absorbFields_cons, hvb]
            simp [hft]
        · have hoptf : is_type_optional t false = false := by
            cases hb : is_type_optional t false with
            | false => rfl
            | true => exact absurd hb hoptb
          have hft : fieldDecodeTyp t = t := by
            unfold fieldDecodeTyp
            rw [hoptf]
            simp
          rw [dataclassFieldValue_present_req n t d fac j r hoptf]
          rw [hft] at hdec2
          rw [hdec2, hrec]
          rw [absorbFields_cons, hvb]
          simp [hft]

theorem map_fst_eq_of_zip (fvs : List (String × Value))
    (fields : List FieldDecl) (hlen : fvs.length = fields.length)
    (hname : ∀ p ∈ List.zip fvs fields, p.1.1 = p.2.fname) :
    fvs.map Prod.fst = fields.map FieldDecl.fname := by
  induction fvs generalizing fields with
  | nil =>
    cases fields with
    | nil => rfl
    | cons _ _ => simp at hlen
  | cons fv fvs ih =>
    cases fields with
    | nil => simp at hlen
    | cons f fs =>
      have h0 : fv.1 = f.fname := hname (fv, f) (by simp)
      have hrest := ih fs (by simpa using hlen)
        (fun p hp => hname p (by simp [hp]))
      simp [h0, hrest]

end StrongTyping
